import Mathlib

/-!
Shallow embedding of the Bifrost validator core (accounts, messages,
transactions, vault storage, transaction executor) and proofs about it.

Machine integers are modelled as `Nat` with explicit `% 2 ^ 64` where the
source's `u64` arithmetic can wrap (release-mode Rust semantics: unchecked
`+` / `-=` wrap, `checked_add` / `checked_sub` return `None` on overflow).
Fallible operations return `Except`. File-system state (the `accounts/`
segment directory) is modelled as an association list from segment file to
byte list.
-/

/-- Decidable equality for `Except`, to let witnesses evaluate results. -/
instance {ε α : Type} [DecidableEq ε] [DecidableEq α] :
    DecidableEq (Except ε α) := fun x y =>
  match x, y with
  | .ok a, .ok b =>
      if h : a = b then .isTrue (by rw [h])
      else .isFalse (fun hh => h (Except.ok.inj hh))
  | .error a, .error b =>
      if h : a = b then .isTrue (by rw [h])
      else .isFalse (fun hh => h (Except.error.inj hh))
  | .ok _, .error _ => .isFalse (fun hh => Except.noConfusion hh)
  | .error _, .ok _ => .isFalse (fun hh => Except.noConfusion hh)

namespace Bifrost

/-- 2^64, the modulus of Rust `u64` arithmetic. -/
def U64_MOD : Nat := 2 ^ 64

/-- Transaction fee constant from `src/validator/processor.rs`. -/
def TRANSACTION_FEE : Nat := 5000

/-- Slot constant from `src/validator/processor.rs`. -/
def CURRENT_SLOT : Nat := 1

/-- Segment size threshold `MAX_ACCOUNT_FILE_SIZE` (the spec's
`MAX_SEGMENT_SIZE`). Its defining module is not under `src/`; the spec gives
the test default 250 bytes, which is the value used here. -/
def MAX_ACCOUNT_FILE_SIZE : Nat := 250

/-- A public key: 32 raw bytes in the source, abstracted to its numeric value
plus its fixed on-curve classification (a property determined by the bytes;
the Edwards-point check itself is a library primitive). Equality is bytewise
in the source, hence structural here. -/
structure Pubkey where
  val : Nat
  oncurve : Bool
deriving DecidableEq

/-- Library-level on-curve check, `Pubkey::is_oncurve`. -/
def Pubkey.is_oncurve (k : Pubkey) : Bool := k.oncurve

/-- Writability marker from `src/account/types.rs`. -/
inductive Writable
  | yes
  | no
deriving DecidableEq

/-- Account kind from `src/account/types.rs`. -/
inductive AccountType
  | program
  | signing
  | wallet
deriving DecidableEq

/-- `AccountType::is_wallet`: Wallet and Signing are wallet kinds. -/
def AccountType.is_wallet : AccountType → Bool
  | .program => false
  | .signing => true
  | .wallet => true

/-- `AccountType::is_compatible`: both wallet kinds, or same discriminant. -/
def AccountType.is_compatible (a b : AccountType) : Bool :=
  (a.is_wallet && b.is_wallet) || a == b

/-- The `ErrorType` discriminants of `src/account/error.rs`. -/
inductive AccountErrorType
  | walletNotOnCurve
  | nonWalletOnCurve
deriving DecidableEq

/-- Errors of the account module, `src/account/error.rs`. -/
inductive AccountError
  | arithmeticOverflow
  | metaAccountCreation (key : Pubkey) (kind : AccountErrorType)
  | mergeIncompatibleAccountTypes (a b : AccountType)
  | missingAccounts
  | modificationOfReadOnlyAccount (key : Pubkey)
deriving DecidableEq

/-- Account metadata, `src/account/meta.rs`. -/
structure AccountMeta where
  key : Pubkey
  kind : AccountType
  writable : Writable
deriving DecidableEq

/-- `AccountMeta::is_signing`. -/
def AccountMeta.is_signing (m : AccountMeta) : Bool := m.kind == .signing

/-- `AccountMeta::is_writable`. -/
def AccountMeta.is_writable (m : AccountMeta) : Bool := m.writable == .yes

/-- `AccountMeta::signing`: requires an on-curve key. -/
def AccountMeta.signing (key : Pubkey) (w : Writable) :
    Except AccountError AccountMeta :=
  if key.is_oncurve then .ok ⟨key, .signing, w⟩
  else .error (.metaAccountCreation key .walletNotOnCurve)

/-- `AccountMeta::wallet`: requires an on-curve key. -/
def AccountMeta.wallet (key : Pubkey) (w : Writable) :
    Except AccountError AccountMeta :=
  if key.is_oncurve then .ok ⟨key, .wallet, w⟩
  else .error (.metaAccountCreation key .walletNotOnCurve)

/-- `AccountMeta::program`: requires an off-curve key, never writable. -/
def AccountMeta.program (key : Pubkey) : Except AccountError AccountMeta :=
  if key.is_oncurve then .error (.metaAccountCreation key .nonWalletOnCurve)
  else .ok ⟨key, .program, .no⟩

/-- `AccountMeta::merge`: fails on incompatible kinds, otherwise the result is
writable if either is and signing if either is. The source mutates `self`;
here the merged meta is returned. -/
def AccountMeta.merge (self other : AccountMeta) :
    Except AccountError AccountMeta :=
  if ¬ self.kind.is_compatible other.kind then
    .error (.mergeIncompatibleAccountTypes self.kind other.kind)
  else
    .ok { self with
          writable := if other.is_writable then .yes else self.writable,
          kind := if other.is_signing then .signing else self.kind }

/-- On-chain wallet record, `src/account/onchain/wallet.rs`. The `u64` balance
is a `Nat`; values written by the program stay below `U64_MOD`. -/
structure Wallet where
  prisms : Nat
deriving DecidableEq

/-- Rust `u64::checked_add`. -/
def checked_add (a b : Nat) : Option Nat :=
  if a + b < U64_MOD then some (a + b) else none

/-- Rust `u64::checked_sub`. -/
def checked_sub (a b : Nat) : Option Nat :=
  if b ≤ a then some (a - b) else none

/-- A `TransactionAccount` of `src/account/transaction.rs`: the key, the two
flags copied from the meta, and — in place of the `Rc<RefCell<&mut u64>>`
sharing a slot of the transaction's working set — the index of that slot.
The working set itself is passed explicitly as a `List Nat` of balances. -/
structure TransactionAccount where
  key : Pubkey
  readonly : Bool
  is_signer : Bool
  idx : Nat
deriving DecidableEq

/-- `TransactionAccount::new` for the working-set slot `idx`. -/
def TransactionAccount.new (meta : AccountMeta) (idx : Nat) :
    TransactionAccount :=
  ⟨meta.key, !meta.is_writable, meta.is_signing, idx⟩

/-- `TransactionAccount::set_prisms`: rejected on a read-only account,
otherwise writes the slot. -/
def TransactionAccount.set_prisms (ta : TransactionAccount) (ws : List Nat)
    (amount : Nat) : Except AccountError (List Nat) :=
  if ta.readonly then .error (.modificationOfReadOnlyAccount ta.key)
  else .ok (ws.set ta.idx amount)

/-- `TransactionAccount::add_prisms`: checked add, then `set_prisms`. -/
def TransactionAccount.add_prisms (ta : TransactionAccount) (ws : List Nat)
    (amount : Nat) : Except AccountError (List Nat) :=
  match checked_add (ws.getD ta.idx 0) amount with
  | none => .error .arithmeticOverflow
  | some res => ta.set_prisms ws res

/-- `TransactionAccount::sub_prisms`: checked sub, then `set_prisms`. -/
def TransactionAccount.sub_prisms (ta : TransactionAccount) (ws : List Nat)
    (amount : Nat) : Except AccountError (List Nat) :=
  match checked_sub (ws.getD ta.idx 0) amount with
  | none => .error .arithmeticOverflow
  | some res => ta.set_prisms ws res

/-- A compiled instruction, `src/transaction/instruction.rs`. The `u8`
indices are `Nat` values below 256 when produced by the compiler. -/
structure CompiledInstruction where
  program_account_id : Nat
  data : List Nat
  accounts : List Nat
deriving DecidableEq

/-- An uncompiled instruction, `src/transaction/instruction.rs`. -/
structure Instruction where
  program_id : Pubkey
  accounts : List AccountMeta
  data : List Nat
deriving DecidableEq

/-- A message, `src/transaction/message.rs`. -/
structure Message where
  slot : Nat
  instructions : List CompiledInstruction
  accounts : List AccountMeta
deriving DecidableEq

/-- `Message::get_payer`: key of the first signing meta. -/
def Message.get_payer (msg : Message) : Option Pubkey :=
  (msg.accounts.find? (·.is_signing)).map (·.key)

/-- `Message::find_account`: position of the key in the account table,
truncated to `u8` by the `as u8` cast. -/
def Message.find_account (msg : Message) (key : Pubkey) : Option Nat :=
  (msg.accounts.findIdx? (fun acc => acc.key == key)).map (· % 256)

/-- `Message::find_or_add_account`: merge into an existing entry, or push a
new one; the returned index is the table length truncated to `u8` in the push
case (no error is raised when the cast wraps). -/
def Message.find_or_add_account (msg : Message) (meta : AccountMeta) :
    Except AccountError (Nat × Message) :=
  match msg.find_account meta.key with
  | some idx => do
      let merged ← (msg.accounts.getD idx meta).merge meta
      .ok (idx, { msg with accounts := msg.accounts.set idx merged })
  | none =>
      .ok (msg.accounts.length % 256, { msg with accounts := msg.accounts ++ [meta] })

/-- The account-metas loop of `Message::compile_instruction`. -/
def Message.compile_accounts (msg : Message) (metas : List AccountMeta) :
    Except AccountError (List Nat × Message) :=
  match metas with
  | [] => .ok ([], msg)
  | m :: rest => do
      let (idx, msg₁) ← msg.find_or_add_account m
      let (ids, msg₂) ← msg₁.compile_accounts rest
      .ok (idx :: ids, msg₂)

/-- `Message::compile_instruction`: compile the instruction's accounts, then
its program (as a Program meta), and build the `CompiledInstruction`. -/
def Message.compile_instruction (msg : Message) (instr : Instruction) :
    Except AccountError (CompiledInstruction × Message) := do
  let (ids, msg₁) ← msg.compile_accounts instr.accounts
  let pmeta ← AccountMeta.program instr.program_id
  let (pid, msg₂) ← msg₁.find_or_add_account pmeta
  .ok (⟨pid, instr.data, ids⟩, msg₂)

/-- `Message::is_valid`: non-empty instructions and accounts. -/
def Message.is_valid (msg : Message) : Bool :=
  !msg.instructions.isEmpty && !msg.accounts.isEmpty

/-- Errors of the transaction module, `src/transaction/error.rs`. -/
inductive TransactionError
  | noSignersOnTransaction
  | wrongNumberOfSignatures (expected actual : Nat)
  | signaturesMismatch
  | unexpectedSigner (key : Pubkey)
deriving DecidableEq

/-- A signed transaction, `src/transaction/transaction.rs`. Signatures are 64
raw bytes in the source, abstracted to `Nat` values; their semantics lives
entirely in the strict ed25519 `verify` interface, passed as a parameter
below (the serialized message determines the message argument, borsh
serialization being injective). -/
structure Transaction where
  signatures : List Nat
  message : Message
deriving DecidableEq

/-- How an abstract signature verifier is typed: signature, public key,
serialized message (represented by the message itself). -/
abbrev SigVerifier := Nat → Pubkey → Message → Bool

/-- `Transaction::get_signers`: keys of the signing metas, in table order. -/
def Transaction.get_signers (trx : Transaction) : List Pubkey :=
  (trx.message.accounts.filter (·.is_signing)).map (·.key)

/-- `Transaction::check_signed`: no signers, wrong signature count, or some
signer without any verifying signature each fail; otherwise ok. -/
def Transaction.check_signed (verify : SigVerifier) (trx : Transaction) :
    Except TransactionError Unit :=
  let signers := trx.get_signers
  if signers.isEmpty then .error .noSignersOnTransaction
  else if signers.length ≠ trx.signatures.length then
    .error (.wrongNumberOfSignatures signers.length trx.signatures.length)
  else if signers.all (fun s =>
      trx.signatures.any (fun sig => verify sig s trx.message)) then .ok ()
  else .error .signaturesMismatch

/-- Modelled from the spec: `Transaction::is_valid`, called by
`register_transaction`, is not under `src/` (only `is_ready` is); §4.3 defines
admission as message non-emptiness plus the signature check, which is exactly
`is_ready` = `message.is_valid() && check_signed().is_ok()`. -/
def Transaction.is_valid (verify : SigVerifier) (trx : Transaction) : Bool :=
  trx.message.is_valid &&
    (match trx.check_signed verify with | .ok _ => true | .error _ => false)

/-- Errors of the validator module, `src/validator/error.rs` (the variants
the embedding needs). -/
inductive ValidatorError
  | invalidTransactionSignatures
deriving DecidableEq

/-- `register_transaction` of `src/validator/processor.rs`, with the
transaction queue modelled as the list of enqueued transactions: an invalid
transaction is rejected (queue untouched), a valid one is appended. -/
def register_transaction (verify : SigVerifier) (queue : List Transaction)
    (trx : Transaction) : Except ValidatorError (List Transaction) :=
  if trx.is_valid verify then .ok (queue ++ [trx])
  else .error .invalidTransactionSignatures

/-- Little-endian base-256 digits, `k` bytes of `n` (borsh `u64` layout when
`k = 8`). -/
def toLEBytes (k n : Nat) : List Nat :=
  match k with
  | 0 => []
  | k + 1 => n % 256 :: toLEBytes k (n / 256)

/-- Value of a little-endian byte list; each entry is reduced mod 256 because
disk bytes are `u8`. -/
def fromLEBytes (l : List Nat) : Nat :=
  l.foldr (fun b acc => b % 256 + 256 * acc) 0

/-- Borsh serialization of a `Wallet`: its `u64` balance, little-endian. -/
def serialize_wallet (w : Wallet) : List Nat := toLEBytes 8 w.prisms

/-- Borsh deserialization of a `Wallet` from an exact byte slice: fails
unless the slice is exactly 8 bytes. -/
def deserialize_wallet (l : List Nat) : Option Wallet :=
  if l.length = 8 then some ⟨fromLEBytes l⟩ else none

/-- Location of a serialized account inside a segment file,
`src/io/location.rs`. -/
structure AccountDiskLocation where
  slot : Nat
  id : Nat
  offset : Nat
  size : Nat
deriving DecidableEq

/-- A segment file key, `src/io/trash.rs`. -/
structure AccountFile where
  slot : Nat
  id : Nat
deriving DecidableEq

/-- `AccountFile::from_loc`. -/
def AccountFile.from_loc (loc : AccountDiskLocation) : AccountFile :=
  ⟨loc.slot, loc.id⟩

/-- An (offset, size) range inside a segment file, `src/io/trash.rs`. -/
structure Loc where
  offset : Nat
  size : Nat
deriving DecidableEq

/-- `Loc::from_loc`. -/
def Loc.from_loc (loc : AccountDiskLocation) : Loc := ⟨loc.offset, loc.size⟩

/-- Errors of the io module, `src/io/error.rs` (the variants the embedding
needs; `fileSystem` also covers borsh failures surfaced through it). -/
inductive VaultError
  | duplicateLocationInTrash (loc : AccountDiskLocation)
  | outOfBounds (lo hi size : Nat)
  | fileSystem
deriving DecidableEq

/-- Association-list lookup (models `HashMap::get`). -/
def alistFind? {κ ν : Type} [DecidableEq κ] (l : List (κ × ν)) (k : κ) :
    Option ν :=
  (l.find? (fun p => p.1 == k)).map (·.2)

/-- Association-list insert-or-replace (models `HashMap::insert`). -/
def alistInsert {κ ν : Type} [DecidableEq κ] (l : List (κ × ν)) (k : κ)
    (v : ν) : List (κ × ν) :=
  match l with
  | [] => [(k, v)]
  | (k₁, v₁) :: rest =>
      if k₁ = k then (k, v) :: rest else (k₁, v₁) :: alistInsert rest k v

/-- Association-list removal (models `HashMap::remove`). -/
def alistErase {κ ν : Type} [DecidableEq κ] (l : List (κ × ν)) (k : κ) :
    List (κ × ν) :=
  match l with
  | [] => []
  | (k₁, v₁) :: rest =>
      if k₁ = k then rest else (k₁, v₁) :: alistErase rest k

/-- The in-memory account index, `src/io/index.rs` (`HashMap` as an
association list). -/
structure Index where
  accounts : List (Pubkey × AccountDiskLocation)
deriving DecidableEq

/-- `Index::find`. -/
def Index.find (idx : Index) (key : Pubkey) : Option AccountDiskLocation :=
  alistFind? idx.accounts key

/-- `Index::set_account`. -/
def Index.set_account (idx : Index) (key : Pubkey)
    (loc : AccountDiskLocation) : Index :=
  ⟨alistInsert idx.accounts key loc⟩

/-- `Index::accounts_on_file`: keys currently indexed into segment
(slot, id). -/
def Index.accounts_on_file (idx : Index) (slot id : Nat) : List Pubkey :=
  (idx.accounts.filter (fun p => p.2.slot == slot && p.2.id == id)).map (·.1)

/-- The trash of obsolete ranges, `src/io/trash.rs`. -/
structure Trash where
  trash : List (AccountFile × List Loc)
deriving DecidableEq

/-- `Trash::insert`: duplicate (offset, size) ranges for one file are
rejected, otherwise the range is pushed onto the file's entry. -/
def Trash.insert (t : Trash) (loc : AccountDiskLocation) :
    Except VaultError Trash :=
  let file := AccountFile.from_loc loc
  let entry := (alistFind? t.trash file).getD []
  let file_loc := Loc.from_loc loc
  if file_loc ∈ entry then .error (.duplicateLocationInTrash loc)
  else .ok ⟨alistInsert t.trash file (entry ++ [file_loc])⟩

/-- `Trash::remove`. -/
def Trash.remove (t : Trash) (file : AccountFile) : Trash :=
  ⟨alistErase t.trash file⟩

/-- The wrapping `u64` fold `|acc, x| acc + x` starting at 0, as used for
prism totals and trashed-byte totals (release-mode `+` wraps). -/
def wrap_fold_sum (l : List Nat) : Nat :=
  l.foldl (fun acc a => (acc + a) % U64_MOD) 0

/-- `Trash::get_files_to_clean`: files whose trashed-byte total reaches half
a segment. -/
def Trash.get_files_to_clean (t : Trash) : List AccountFile :=
  (t.trash.filter (fun p =>
    MAX_ACCOUNT_FILE_SIZE / 2 ≤ wrap_fold_sum (p.2.map (·.size)))).map (·.1)

/-- The vault, `src/io/vault.rs`: index, trash, and — standing in for the
`accounts/` directory — the bytes of every segment file. -/
structure Vault where
  index : Index
  trash : Trash
  disk : List (AccountFile × List Nat)
deriving DecidableEq

/-- `read_from_file_map` of `src/io/support.rs`, restricted to wallet
records: fails when the file is missing or the range exceeds the file
length, otherwise deserializes the byte range. -/
def read_from_file_map (disk : List (AccountFile × List Nat))
    (loc : AccountDiskLocation) : Except VaultError Wallet :=
  match alistFind? disk (AccountFile.from_loc loc) with
  | none => .error .fileSystem
  | some seg =>
      if loc.offset + loc.size ≤ seg.length then
        match deserialize_wallet ((seg.drop loc.offset).take loc.size) with
        | some w => .ok w
        | none => .error .fileSystem
      else .error (.outOfBounds loc.offset (loc.offset + loc.size) seg.length)

/-- `Vault::get` (through `Index::load`): default wallet when the key is not
indexed, otherwise read the location from disk. -/
def Vault.get (v : Vault) (key : Pubkey) : Except VaultError Wallet :=
  match v.index.find key with
  | none => .ok ⟨0⟩
  | some loc => read_from_file_map v.disk loc

/-- `get_id_from_files` of `src/io/location.rs`: the largest existing segment
id for the slot, 0 when none exists. -/
def get_id_from_files (disk : List (AccountFile × List Nat)) (slot : Nat) :
    Nat :=
  (disk.filterMap (fun p => if p.1.slot = slot then some p.1.id else none)).foldr
    max 0

/-- Modelled from the spec: `AccountDiskLocation::new_from_write`, called by
`Vault::save_account`, is not under `src/` (the `location.rs` there holds the
`SlotWriter` variant). Per §4.1.2 it serializes the wallet and appends it to
the active segment for the slot, returning the resulting location; per §4.1.1
the active segment rolls to id+1 (a `u8`) once the current one's length has
reached `MAX_ACCOUNT_FILE_SIZE`. -/
def new_from_write (v : Vault) (w : Wallet) (slot : Nat) :
    AccountDiskLocation × Vault :=
  let data := serialize_wallet w
  let id₀ := get_id_from_files v.disk slot
  let seg₀ := (alistFind? v.disk ⟨slot, id₀⟩).getD []
  let id := if MAX_ACCOUNT_FILE_SIZE ≤ seg₀.length then (id₀ + 1) % 256 else id₀
  let seg := (alistFind? v.disk ⟨slot, id⟩).getD []
  let loc : AccountDiskLocation := ⟨slot, id, seg.length, data.length⟩
  (loc, { v with disk := alistInsert v.disk ⟨slot, id⟩ (seg ++ data) })

/-- `Vault::save_account`: a known key's old location goes to the trash first
(failing there aborts the save with the vault unchanged), then the wallet is
appended and the index entry installed. -/
def Vault.save_account (v : Vault) (key : Pubkey) (w : Wallet) (slot : Nat) :
    Except VaultError Vault :=
  match v.index.find key with
  | some oldLoc => do
      let t ← v.trash.insert oldLoc
      let (loc, v₂) := new_from_write { v with trash := t } w slot
      .ok { v₂ with index := v₂.index.set_account key loc }
  | none =>
      let (loc, v₂) := new_from_write v w slot
      .ok { v₂ with index := v₂.index.set_account key loc }

/-- The per-key loop of `Vault::relocate_accounts`: re-read each live account
of the segment and re-append it to the active segment of its original slot,
updating the index. -/
def Vault.relocate_go (v : Vault) (slot : Nat) (keys : List Pubkey) :
    Except VaultError Vault :=
  match keys with
  | [] => .ok v
  | k :: rest =>
      match v.index.find k with
      | none => .error .fileSystem
      | some loc => do
          let w ← read_from_file_map v.disk loc
          let (newLoc, v₁) := new_from_write v w slot
          Vault.relocate_go
            { v₁ with index := v₁.index.set_account k newLoc } slot rest

/-- `Vault::relocate_accounts`. -/
def Vault.relocate_accounts (v : Vault) (slot id : Nat) :
    Except VaultError Vault :=
  v.relocate_go slot (v.index.accounts_on_file slot id)

/-- The loop of `Vault::cleanup` over the files to clean: skip the current
slot's files; otherwise relocate the live accounts, delete the segment file
(an absent file is a file-system error, as for `remove_file`), and drop the
trash entry. Errors abort the loop with the state reached so far. -/
def Vault.cleanup_go (v : Vault) (files : List AccountFile)
    (current_slot : Nat) : Vault × Option VaultError :=
  match files with
  | [] => (v, none)
  | f :: rest =>
      if f.slot = current_slot then v.cleanup_go rest current_slot
      else
        match v.relocate_accounts f.slot f.id with
        | .error e => (v, some e)
        | .ok v₁ =>
            match alistFind? v₁.disk f with
            | none => (v₁, some .fileSystem)
            | some _ =>
                Vault.cleanup_go
                  { v₁ with disk := alistErase v₁.disk f,
                            trash := v₁.trash.remove f }
                  rest current_slot

/-- `Vault::cleanup`. -/
def Vault.cleanup (v : Vault) (current_slot : Nat) :
    Vault × Option VaultError :=
  v.cleanup_go (v.trash.get_files_to_clean) current_slot

/-- The `SlotWriter` of `src/io/location.rs`: slot, active segment id (a
`u8`), and current offset (a `u64`). The source also carries a byte buffer
flushed to disk on rotation and drop; appended bytes only influence the
returned locations through their length, so the writer state here keeps slot,
id and offset. -/
structure SlotWriter where
  slot : Nat
  id : Nat
  offset : Nat
deriving DecidableEq

/-- `SlotWriter::append` for a record serializing to `size` bytes: the
location returned is at the current (id, offset); then the offset advances
(wrapping `u64` add) and, once it has reached `MAX_ACCOUNT_FILE_SIZE`, the
writer rolls to the next id (`u8` increment, wrapping at 256) with offset
zero. -/
def SlotWriter.append (w : SlotWriter) (size : Nat) :
    AccountDiskLocation × SlotWriter :=
  let res : AccountDiskLocation := ⟨w.slot, w.id, w.offset, size⟩
  let offset₁ := (w.offset + size) % U64_MOD
  if MAX_ACCOUNT_FILE_SIZE ≤ offset₁ then
    (res, ⟨w.slot, (w.id + 1) % 256, 0⟩)
  else
    (res, ⟨w.slot, w.id, offset₁⟩)

/-- Iterated appends of records of a fixed serialized size, used to follow a
sequence of appends for one slot. -/
def SlotWriter.append_iter (w : SlotWriter) (size n : Nat) : SlotWriter :=
  match n with
  | 0 => w
  | n + 1 => ((w.append size).2).append_iter size n

/-- The raw bytes of the fixed system-program key of
`src/program/system.rs`. -/
def SYSTEM_PROGRAM_BYTES : List Nat :=
  [159, 65, 158, 196, 5, 83, 96, 13, 242, 56, 2, 138, 167, 225, 20, 157,
   169, 199, 82, 249, 248, 91, 220, 170, 46, 53, 235, 98, 98, 0, 0, 0]

/-- The system-program `Pubkey` (a fixed off-curve key). -/
def SYSTEM_PROGRAM : Pubkey := ⟨fromLEBytes SYSTEM_PROGRAM_BYTES, false⟩

/-- The failure modes a transaction execution can surface, merging the
program-level errors of `src/program/error.rs` with the validator-level ones
of `src/validator/error.rs`. The two `panic` variants stand for the Rust
`unwrap` and out-of-range-index panics of `execute_transaction_inner`. -/
inductive ProcessError
  | unknownProgram (key : Pubkey)
  | invalidPayload
  | custom
  | accountError (e : AccountError)
  | prismTotalChanged
  | storage (e : VaultError)
  | panicNoPayer
  | panicBadIndex
deriving DecidableEq

/-- Borsh decoding of `SystemInstruction::Transfer`: tag byte 0 followed by
exactly 8 little-endian amount bytes. -/
def parse_system_instruction (data : List Nat) : Option Nat :=
  match data with
  | 0 :: rest => if rest.length = 8 then some (fromLEBytes rest) else none
  | _ => none

/-- The `transfer` handler of `src/program/system.rs`: first account is the
payer and must be a signer (else a Custom error), second is the receiver;
subtract from the payer, add to the receiver. Missing accounts fail. -/
def system_transfer (tas : List TransactionAccount) (amount : Nat)
    (ws : List Nat) : Except ProcessError (List Nat) :=
  match tas with
  | [] => .error (.accountError .missingAccounts)
  | payer :: rest =>
      if !payer.is_signer then .error .custom
      else
        match rest with
        | [] => .error (.accountError .missingAccounts)
        | receiver :: _ => do
            let ws₁ ← (payer.sub_prisms ws amount).mapError .accountError
            (receiver.add_prisms ws₁ amount).mapError .accountError

/-- `system::execute_instruction`: decode the payload, run the handler. -/
def system_execute_instruction (tas : List TransactionAccount)
    (data : List Nat) (ws : List Nat) : Except ProcessError (List Nat) :=
  match parse_system_instruction data with
  | none => .error .invalidPayload
  | some amount => system_transfer tas amount ws

/-- `dispatch` of `src/program/dispatcher.rs`: only the system program is
registered; any other key is an unknown program. -/
def dispatch (program : Pubkey) (tas : List TransactionAccount)
    (data : List Nat) (ws : List Nat) : Except ProcessError (List Nat) :=
  if program = SYSTEM_PROGRAM then system_execute_instruction tas data ws
  else .error (.unknownProgram program)

/-- `get_transaction_accounts` of `src/validator/processor.rs`: fetch every
meta's wallet from the vault, in order. -/
def get_transaction_accounts (v : Vault) (metas : List AccountMeta) :
    Except VaultError (List Wallet) :=
  match metas with
  | [] => .ok []
  | m :: rest => do
      let w ← v.get m.key
      let ws ← get_transaction_accounts v rest
      .ok (w :: ws)

/-- The account-slice loop of `execute_instruction`: each compiled index `i`
yields the `TransactionAccount` view over working-set slot `i` (an
out-of-range index is a Rust index panic). -/
def resolve_instruction_accounts (metas : List AccountMeta)
    (ids : List Nat) : Option (List TransactionAccount) :=
  match ids with
  | [] => some []
  | i :: rest =>
      match metas.get? i with
      | none => none
      | some m =>
          (resolve_instruction_accounts metas rest).map
            (TransactionAccount.new m i :: ·)

/-- `execute_instruction` of `src/validator/processor.rs`: resolve the
program meta and the instruction's account slice, then dispatch. -/
def execute_instruction (metas : List AccountMeta)
    (instr : CompiledInstruction) (ws : List Nat) :
    Except ProcessError (List Nat) :=
  match metas.get? instr.program_account_id with
  | none => .error .panicBadIndex
  | some pmeta =>
      match resolve_instruction_accounts metas instr.accounts with
      | none => .error .panicBadIndex
      | some tas => dispatch pmeta.key tas instr.data ws

/-- The instruction loop of `execute_transaction_inner`, threading the
working set (an instruction's mutation is visible to the following ones). -/
def run_instructions (metas : List AccountMeta)
    (instrs : List CompiledInstruction) (ws : List Nat) :
    Except ProcessError (List Nat) :=
  match instrs with
  | [] => .ok ws
  | i :: rest => do
      let ws₁ ← execute_instruction metas i ws
      run_instructions metas rest ws₁

/-- `save_accounts` of `src/validator/processor.rs`: persist every writable
meta's working copy, in order; a failing save aborts the loop, keeping the
writes already made. -/
def save_accounts (v : Vault) (pairs : List (AccountMeta × Nat))
    (slot : Nat) : Vault × Option ProcessError :=
  match pairs with
  | [] => (v, none)
  | (m, p) :: rest =>
      if m.is_writable then
        match v.save_account m.key ⟨p⟩ slot with
        | .error e => (v, some (.storage e))
        | .ok v₁ => save_accounts v₁ rest slot
  else save_accounts v rest slot

/-- `execute_transaction_inner` of `src/validator/processor.rs`. The fee
debit is the source's unchecked `prisms -= TRANSACTION_FEE`, which in
release-mode Rust wraps modulo 2^64; the prism totals are the source's
unchecked wrapping folds. Returns the vault together with `none` on commit
or the failure otherwise (on failure before `save_accounts` the vault is
returned untouched, as in the source where saving is the last step). -/
def execute_transaction_inner (v : Vault) (trx : Transaction) :
    Vault × Option ProcessError :=
  let metas := trx.message.accounts
  match trx.message.get_payer with
  | none => (v, some .panicNoPayer)
  | some payer =>
      match get_transaction_accounts v metas with
      | .error e => (v, some (.storage e))
      | .ok wallets =>
          match metas.findIdx? (fun m => m.key == payer) with
          | none => (v, some .panicNoPayer)
          | some payer_id =>
              let ws₀ := wallets.map (·.prisms)
              let ws₁ := ws₀.set payer_id
                ((ws₀.getD payer_id 0 + (U64_MOD - TRANSACTION_FEE)) % U64_MOD)
              let total_prisms := wrap_fold_sum ws₁
              match run_instructions metas trx.message.instructions ws₁ with
              | .error e => (v, some e)
              | .ok ws₂ =>
                  if total_prisms ≠ wrap_fold_sum ws₂ then
                    (v, some .prismTotalChanged)
                  else save_accounts v (metas.zip ws₂) CURRENT_SLOT

/-! Infrastructure lemmas. -/

theorem toLEBytes_length (k n : Nat) : (toLEBytes k n).length = k := by
  induction k generalizing n with
  | zero => rfl
  | succ k ih => simp [toLEBytes, ih]

theorem fromLEBytes_toLEBytes (k n : Nat) :
    fromLEBytes (toLEBytes k n) = n % 256 ^ k := by
  induction k generalizing n with
  | zero => simp [toLEBytes, fromLEBytes, Nat.mod_one]
  | succ k ih =>
      simp only [toLEBytes, fromLEBytes, List.foldr_cons] at *
      rw [ih (n / 256), Nat.mod_mod_of_dvd n dvd_rfl, pow_succ']
      exact (Nat.mod_mul).symm

theorem fromLEBytes_lt (l : List Nat) : fromLEBytes l < 256 ^ l.length := by
  induction l with
  | nil => simp [fromLEBytes]
  | cons b rest ih =>
      simp only [fromLEBytes, List.foldr_cons, List.length_cons, pow_succ] at *
      have hb : b % 256 < 256 := Nat.mod_lt _ (by norm_num)
      calc b % 256 + 256 * List.foldr (fun b acc => b % 256 + 256 * acc) 0 rest
          < 256 + 256 * List.foldr (fun b acc => b % 256 + 256 * acc) 0 rest := by
            omega
        _ ≤ 256 * 256 ^ rest.length := by
            have := ih
            omega
        _ = 256 ^ rest.length * 256 := by ring

theorem deserialize_serialize_wallet (w : Wallet) (h : w.prisms < U64_MOD) :
    deserialize_wallet (serialize_wallet w) = some w := by
  have hu : U64_MOD = 18446744073709551616 := by norm_num [U64_MOD]
  cases w with
  | mk p =>
      simp only [U64_MOD] at h
      simp [deserialize_wallet, serialize_wallet, toLEBytes_length,
        fromLEBytes_toLEBytes]
      omega

theorem serialize_wallet_length (w : Wallet) :
    (serialize_wallet w).length = 8 := toLEBytes_length 8 w.prisms

theorem wrap_fold_sum_go (l : List Nat) :
    ∀ acc, acc < U64_MOD →
      l.foldl (fun acc a => (acc + a) % U64_MOD) acc = (acc + l.sum) % U64_MOD := by
  induction l with
  | nil => intro acc hacc; simpa using (Nat.mod_eq_of_lt hacc).symm
  | cons a rest ih =>
      intro acc hacc
      simp only [List.foldl_cons, List.sum_cons]
      rw [ih _ (Nat.mod_lt _ (by simp [U64_MOD])), Nat.mod_add_mod,
        Nat.add_assoc]

theorem wrap_fold_sum_eq (l : List Nat) :
    wrap_fold_sum l = l.sum % U64_MOD := by
  simpa using wrap_fold_sum_go l 0 (by simp [U64_MOD])

theorem alistFind?_cons {κ ν : Type} [DecidableEq κ]
    (p : κ × ν) (rest : List (κ × ν)) (k : κ) :
    alistFind? (p :: rest) k =
      if p.1 = k then some p.2 else alistFind? rest k := by
  by_cases h : p.1 = k
  · simp only [alistFind?, if_pos h]
    rw [List.find?_cons_of_pos _ (by simpa using h)]
    simp
  · simp only [alistFind?, if_neg h]
    rw [List.find?_cons_of_neg _ (by simpa using h)]

theorem alistFind?_insert_self {κ ν : Type} [DecidableEq κ]
    (l : List (κ × ν)) (k : κ) (v : ν) :
    alistFind? (alistInsert l k v) k = some v := by
  induction l with
  | nil => simp [alistInsert, alistFind?_cons]
  | cons p rest ih =>
      obtain ⟨k₁, v₁⟩ := p
      by_cases h : k₁ = k
      · simp [alistInsert, h, alistFind?_cons]
      · simp only [alistInsert, if_neg h]
        rw [alistFind?_cons]
        simpa [h] using ih

theorem alistFind?_insert_other {κ ν : Type} [DecidableEq κ]
    (l : List (κ × ν)) (k k' : κ) (v : ν) (hne : k' ≠ k) :
    alistFind? (alistInsert l k v) k' = alistFind? l k' := by
  induction l with
  | nil => simp [alistInsert, alistFind?_cons, alistFind?, Ne.symm hne]
  | cons p rest ih =>
      obtain ⟨k₁, v₁⟩ := p
      by_cases h : k₁ = k
      · subst h
        simp [alistInsert, alistFind?_cons, Ne.symm hne]
      · simp only [alistInsert, if_neg h]
        rw [alistFind?_cons, alistFind?_cons]
        by_cases h2 : k₁ = k' <;> simp [h2, ih]

theorem alistFind?_erase_other {κ ν : Type} [DecidableEq κ]
    (l : List (κ × ν)) (k k' : κ) (hne : k' ≠ k) :
    alistFind? (alistErase l k) k' = alistFind? l k' := by
  induction l with
  | nil => simp [alistErase]
  | cons p rest ih =>
      obtain ⟨k₁, v₁⟩ := p
      by_cases h : k₁ = k
      · subst h
        simp [alistErase, alistFind?_cons, Ne.symm hne]
      · simp only [alistErase, if_neg h]
        rw [alistFind?_cons, alistFind?_cons]
        by_cases h2 : k₁ = k' <;> simp [h2, ih]

/-! Vault lemmas: append-only disk growth, read-back after a save, and frame
properties for unrelated keys. -/

theorem new_from_write_index (v : Vault) (w : Wallet) (slot : Nat) :
    ((new_from_write v w slot).2).index = v.index := rfl

theorem new_from_write_trash (v : Vault) (w : Wallet) (slot : Nat) :
    ((new_from_write v w slot).2).trash = v.trash := rfl

theorem new_from_write_disk_extends (v : Vault) (w : Wallet) (slot : Nat)
    (f : AccountFile) (bs : List Nat) (h : alistFind? v.disk f = some bs) :
    ∃ tail, alistFind? ((new_from_write v w slot).2).disk f
      = some (bs ++ tail) := by
  simp only [new_from_write]
  set id₀ := get_id_from_files v.disk slot with hid₀
  set seg₀ := (alistFind? v.disk ⟨slot, id₀⟩).getD [] with hseg₀
  set nid := if MAX_ACCOUNT_FILE_SIZE ≤ seg₀.length then (id₀ + 1) % 256
    else id₀ with hnid
  by_cases hf : f = (⟨slot, nid⟩ : AccountFile)
  · subst hf
    refine ⟨serialize_wallet w, ?_⟩
    rw [alistFind?_insert_self]
    rw [h]
    simp
  · exact ⟨[], by rw [alistFind?_insert_other _ _ _ _ hf, h]; simp⟩

theorem read_from_file_map_extends
    (disk disk' : List (AccountFile × List Nat))
    (hext : ∀ f bs, alistFind? disk f = some bs →
      ∃ tail, alistFind? disk' f = some (bs ++ tail))
    (loc : AccountDiskLocation) (w : Wallet)
    (h : read_from_file_map disk loc = .ok w) :
    read_from_file_map disk' loc = .ok w := by
  unfold read_from_file_map at h ⊢
  cases hfind : alistFind? disk (AccountFile.from_loc loc) with
  | none => rw [hfind] at h; exact absurd h (by simp)
  | some seg =>
      rw [hfind] at h
      obtain ⟨tail, htail⟩ := hext _ _ hfind
      rw [htail]
      dsimp only at h ⊢
      by_cases hb : loc.offset + loc.size ≤ seg.length
      · rw [if_pos hb] at h
        have hb' : loc.offset + loc.size ≤ (seg ++ tail).length := by
          simp only [List.length_append]; omega
        rw [if_pos hb']
        have hslice : ((seg ++ tail).drop loc.offset).take loc.size
            = (seg.drop loc.offset).take loc.size := by
          rw [List.drop_append_of_le_length (by omega)]
          exact List.take_append_of_le_length (by
            simp only [List.length_drop]; omega)
        rw [hslice]
        exact h
      · rw [if_neg hb] at h
        exact absurd h (by simp)

theorem new_from_write_read (v : Vault) (w : Wallet) (slot : Nat)
    (h : w.prisms < U64_MOD) :
    read_from_file_map ((new_from_write v w slot).2).disk
      ((new_from_write v w slot).1) = .ok w := by
  simp only [new_from_write]
  set id₀ := get_id_from_files v.disk slot with hid₀
  set seg₀ := (alistFind? v.disk ⟨slot, id₀⟩).getD [] with hseg₀
  set nid := if MAX_ACCOUNT_FILE_SIZE ≤ seg₀.length then (id₀ + 1) % 256
    else id₀ with hnid
  set seg := (alistFind? v.disk ⟨slot, nid⟩).getD [] with hseg
  unfold read_from_file_map
  simp only [AccountFile.from_loc]
  rw [alistFind?_insert_self]
  dsimp only
  have hlen : seg.length + (serialize_wallet w).length
      ≤ (seg ++ serialize_wallet w).length := by
    simp [List.length_append]
  rw [if_pos hlen]
  have hslice : ((seg ++ serialize_wallet w).drop seg.length).take
      (serialize_wallet w).length = serialize_wallet w := by
    rw [List.drop_left, List.take_length]
  rw [hslice, deserialize_serialize_wallet w h]

theorem save_account_get_same (v : Vault) (key : Pubkey) (w : Wallet)
    (slot : Nat) (v' : Vault) (hw : w.prisms < U64_MOD)
    (h : v.save_account key w slot = .ok v') :
    v'.get key = .ok w := by
  unfold Vault.save_account at h
  cases hfind : v.index.find key with
  | none =>
      rw [hfind] at h
      simp only at h
      cases h
      unfold Vault.get Index.find Index.set_account
      simp only
      rw [alistFind?_insert_self]
      exact new_from_write_read v w slot hw
  | some oldLoc =>
      rw [hfind] at h
      simp only [bind, Except.bind] at h
      cases hins : v.trash.insert oldLoc with
      | error e => rw [hins] at h; exact absurd h (by simp)
      | ok t =>
          rw [hins] at h
          simp only at h
          cases h
          unfold Vault.get Index.find Index.set_account
          simp only
          rw [alistFind?_insert_self]
          exact new_from_write_read { v with trash := t } w slot hw

theorem save_account_get_other (v : Vault) (key key' : Pubkey) (w w' : Wallet)
    (slot : Nat) (v' : Vault) (hne : key' ≠ key)
    (h : v.save_account key w slot = .ok v')
    (hget : v.get key' = .ok w') :
    v'.get key' = .ok w' := by
  unfold Vault.save_account at h
  have main : ∀ (vm : Vault), vm.disk = v.disk → vm.index = v.index →
      ∀ loc₂ v₂, new_from_write vm w slot = (loc₂, v₂) →
      v' = { v₂ with index := v₂.index.set_account key loc₂ } →
      v'.get key' = .ok w' := by
    intro vm hdisk hindex loc₂ v₂ hnfw hv'
    subst hv'
    unfold Vault.get Index.find Index.set_account
    simp only
    rw [alistFind?_insert_other _ _ _ _ hne]
    have hidx₂ : v₂.index = vm.index := by
      have := new_from_write_index vm w slot
      rw [hnfw] at this
      exact this
    rw [hidx₂, hindex]
    unfold Vault.get at hget
    cases hfind : v.index.find key' with
    | none =>
        rw [hfind] at hget
        unfold Index.find at hfind
        rw [hfind]
        exact hget
    | some loc' =>
        rw [hfind] at hget
        unfold Index.find at hfind
        rw [hfind]
        have hext : ∀ f bs, alistFind? v.disk f = some bs →
            ∃ tail, alistFind? v₂.disk f = some (bs ++ tail) := by
          intro f bs hbs
          have := new_from_write_disk_extends vm w slot f bs
            (by rw [hdisk]; exact hbs)
          rw [hnfw] at this
          exact this
        exact read_from_file_map_extends v.disk v₂.disk hext loc' w' hget
  cases hfind : v.index.find key with
  | none =>
      rw [hfind] at h
      simp only at h
      cases h
      exact main v rfl rfl _ _ rfl rfl
  | some oldLoc =>
      rw [hfind] at h
      simp only [bind, Except.bind] at h
      cases hins : v.trash.insert oldLoc with
      | error e => rw [hins] at h; exact absurd h (by simp)
      | ok t =>
          rw [hins] at h
          simp only at h
          cases h
          exact main { v with trash := t } rfl rfl _ _ rfl rfl

/-! Concrete example values used by witnesses and counterexamples. -/

/-- An empty vault: empty index, empty trash, empty segment directory. -/
def exVault0 : Vault := ⟨⟨[]⟩, ⟨[]⟩, []⟩

/-- A concrete on-curve key. -/
def exKeyA : Pubkey := ⟨10, true⟩

/-- Another concrete on-curve key. -/
def exKeyB : Pubkey := ⟨11, true⟩

/-- The vault after saving a 5-prism wallet for `exKeyA` at slot 0. -/
def exVault1 : Vault := (exVault0.save_account exKeyA ⟨5⟩ 0).toOption.getD exVault0

/-! Claim theorems. -/

/-- C5: a successful `save_account(key, w, slot)` followed by `get(key)` on
the same vault returns a wallet equal to `w`, and `get` of a key absent from
the index returns the default zero-prism wallet. -/
theorem C5_save_then_get (v : Vault) (key : Pubkey) (w : Wallet) (slot : Nat)
    (v' : Vault) (hw : w.prisms < U64_MOD)
    (h : v.save_account key w slot = .ok v') :
    v'.get key = .ok w ∧
      ∀ (u : Vault) (k : Pubkey), u.index.find k = none → u.get k = .ok ⟨0⟩ := by
  refine ⟨save_account_get_same v key w slot v' hw h, ?_⟩
  intro u k hk
  unfold Vault.get
  rw [hk]

/-- Witness for C5 at a concrete vault, key and wallet. -/
theorem C5_save_then_get_witness :
    exVault1.get exKeyA = .ok ⟨5⟩ ∧ exVault0.get exKeyB = .ok ⟨0⟩ := by
  have h := C5_save_then_get exVault0 exKeyA ⟨5⟩ 0 exVault1
    (by norm_num [U64_MOD]) (by decide)
  exact ⟨h.1, h.2 exVault0 exKeyB (by decide)⟩

/-- C9: `add_prisms` and `sub_prisms` on a `TransactionAccount` succeed (and
write the new balance into the account's working-set slot) exactly when the
account is writable and the checked `u64` arithmetic fits; on overflow or
underflow they fail with ArithmeticOverflow, and on a read-only account (with
fitting arithmetic) with ModificationOfReadOnlyAccount. Failures return
before any write, leaving the working set unchanged. -/
theorem C9_prism_accessors (ta : TransactionAccount) (ws : List Nat)
    (n : Nat) (h : ta.idx < ws.length) :
    ((∃ ws₁, ta.add_prisms ws n = .ok ws₁) ↔
        (ta.readonly = false ∧ ws.getD ta.idx 0 + n < U64_MOD)) ∧
    (ta.readonly = false → ws.getD ta.idx 0 + n < U64_MOD →
        ta.add_prisms ws n = .ok (ws.set ta.idx (ws.getD ta.idx 0 + n))) ∧
    (U64_MOD ≤ ws.getD ta.idx 0 + n →
        ta.add_prisms ws n = .error .arithmeticOverflow) ∧
    (ta.readonly = true → ws.getD ta.idx 0 + n < U64_MOD →
        ta.add_prisms ws n = .error (.modificationOfReadOnlyAccount ta.key)) ∧
    ((∃ ws₁, ta.sub_prisms ws n = .ok ws₁) ↔
        (ta.readonly = false ∧ n ≤ ws.getD ta.idx 0)) ∧
    (ta.readonly = false → n ≤ ws.getD ta.idx 0 →
        ta.sub_prisms ws n = .ok (ws.set ta.idx (ws.getD ta.idx 0 - n))) ∧
    (ws.getD ta.idx 0 < n →
        ta.sub_prisms ws n = .error .arithmeticOverflow) ∧
    (ta.readonly = true → n ≤ ws.getD ta.idx 0 →
        ta.sub_prisms ws n = .error (.modificationOfReadOnlyAccount ta.key)) := by
  unfold TransactionAccount.add_prisms TransactionAccount.sub_prisms
    TransactionAccount.set_prisms checked_add checked_sub
  set a := ws.getD ta.idx 0 with ha
  by_cases hro : ta.readonly <;> by_cases hov : a + n < U64_MOD <;>
    by_cases hun : n ≤ a <;>
      simp [hro, hov, hun]

/-- Witness for C9 at a concrete account, working set and amount. -/
theorem C9_prism_accessors_witness :
    (TransactionAccount.mk exKeyA false true 0).add_prisms [5, 7] 3
      = .ok [8, 7] := by
  have h := C9_prism_accessors (TransactionAccount.mk exKeyA false true 0)
    [5, 7] 3 (by decide)
  have := h.2.1 rfl (by norm_num [U64_MOD])
  simpa using this

set_option maxRecDepth 8000 in
/-- C6 counterexample: segment ids are `u8` values; starting from a fresh
writer, 255 threshold-crossing appends reach id 255, and the next rotation
wraps the id back to 0 instead of 256 — so the id sequence is not
monotonically increasing and the post-rotation segment is not id+1. -/
theorem C6_counterexample_id_wraps :
    ((SlotWriter.mk 0 0 0).append_iter 250 255).id = 255 ∧
    ((SlotWriter.mk 0 0 0).append_iter 250 256).id = 0 ∧
    ((((SlotWriter.mk 0 0 0).append_iter 250 255).append 250).2.id ≠
      ((SlotWriter.mk 0 0 0).append_iter 250 255).id + 1) := by
  decide

/-- C6 (amended): an append returns a location in the current segment at the
current offset; when the new offset reaches or crosses
`MAX_ACCOUNT_FILE_SIZE` the writer rolls to id+1 modulo 256 (the id is a
`u8`) with offset zero, otherwise the id is unchanged; ids never decrease as
long as the writer is below the `u8` wrap point 255. -/
theorem C6_segment_rotation (w : SlotWriter) (size : Nat) :
    ((w.append size).1 = ⟨w.slot, w.id, w.offset, size⟩) ∧
    (MAX_ACCOUNT_FILE_SIZE ≤ (w.offset + size) % U64_MOD →
      (w.append size).2.id = (w.id + 1) % 256 ∧ (w.append size).2.offset = 0) ∧
    ((w.offset + size) % U64_MOD < MAX_ACCOUNT_FILE_SIZE →
      (w.append size).2.id = w.id ∧
        (w.append size).2.offset = (w.offset + size) % U64_MOD) ∧
    (w.id < 255 → w.id ≤ (w.append size).2.id) := by
  refine ⟨?_, ?_, ?_, ?_⟩
  · unfold SlotWriter.append
    dsimp only
    split <;> rfl
  · intro hth
    simp [SlotWriter.append, hth]
  · intro hlt
    have hth : ¬ MAX_ACCOUNT_FILE_SIZE ≤ (w.offset + size) % U64_MOD := by omega
    simp [SlotWriter.append, hth]
  · intro hid
    by_cases hth : MAX_ACCOUNT_FILE_SIZE ≤ (w.offset + size) % U64_MOD
    · simp only [SlotWriter.append, if_pos hth]
      rw [Nat.mod_eq_of_lt (by omega)]
      omega
    · simp [SlotWriter.append, hth]

/-- Witness for C6 at a concrete writer: an append crossing the threshold
rolls a mid-range writer from id 5 to id 6 with offset 0. -/
theorem C6_segment_rotation_witness :
    ((SlotWriter.mk 0 5 100).append 200).2.id = 6 ∧
    ((SlotWriter.mk 0 5 100).append 200).2.offset = 0 ∧
    ((SlotWriter.mk 0 5 100).append 200).1 = ⟨0, 5, 100, 200⟩ := by
  have h := C6_segment_rotation (SlotWriter.mk 0 5 100) 200
  have hroll := h.2.1 (by norm_num [U64_MOD, MAX_ACCOUNT_FILE_SIZE])
  exact ⟨by rw [hroll.1]; decide, hroll.2, by rw [h.1]⟩

/-! Message-compilation lemmas for C10. -/

theorem merge_key (self other m : AccountMeta)
    (h : self.merge other = .ok m) : m.key = self.key := by
  unfold AccountMeta.merge at h
  by_cases hc : self.kind.is_compatible other.kind
  · simp only [hc, not_true_eq_false, if_neg] at h
    cases h
    rfl
  · simp [hc] at h

theorem find_or_add_spec (msg : Message) (meta : AccountMeta)
    (idx : Nat) (msg' : Message)
    (h : msg.find_or_add_account meta = .ok (idx, msg')) :
    (msg.accounts.length ≤ msg'.accounts.length ∧
      msg'.accounts.length ≤ msg.accounts.length + 1) ∧
    (∀ j (hj : j < msg.accounts.length),
      ∃ hj' : j < msg'.accounts.length,
        (msg'.accounts[j]).key = (msg.accounts[j]).key) ∧
    (msg'.accounts.length ≤ 256 →
      ∃ hidx : idx < msg'.accounts.length,
        (msg'.accounts[idx]).key = meta.key) := by
  unfold Message.find_or_add_account at h
  cases hfa : msg.find_account meta.key with
  | some i =>
      rw [hfa] at h
      unfold Message.find_account at hfa
      cases hfi : msg.accounts.findIdx? (fun acc => acc.key == meta.key) with
      | none => rw [hfi] at hfa; exact absurd hfa (by simp)
      | some pos =>
          rw [hfi] at hfa
          have hfa2 : pos % 256 = i := by simpa using hfa
          cases hfa2
          obtain ⟨hpos, hkey, -⟩ := List.findIdx?_eq_some_iff_getElem.mp hfi
          have hposmod : pos % 256 ≤ pos := Nat.mod_le _ _
          simp only [bind, Except.bind] at h
          cases hm : (msg.accounts.getD (pos % 256) meta).merge meta with
          | error e => rw [hm] at h; exact absurd h (by simp)
          | ok merged =>
              rw [hm] at h
              simp only at h
              cases h
              have hlt : pos % 256 < msg.accounts.length := by omega
              refine ⟨by simp, ?_, ?_⟩
              · intro j hj
                refine ⟨by simpa using hj, ?_⟩
                rw [List.getElem_set]
                by_cases hji : pos % 256 = j
                · subst hji
                  simp only [if_true]
                  have := merge_key _ _ _ hm
                  rw [this, List.getD_eq_getElem msg.accounts meta hlt]
                · simp [hji]
              · intro hlen
                simp only [List.length_set] at hlen
                have hpos256 : pos % 256 = pos := Nat.mod_eq_of_lt (by omega)
                refine ⟨by simpa using hlt, ?_⟩
                rw [List.getElem_set, if_pos rfl]
                have := merge_key _ _ _ hm
                rw [this, List.getD_eq_getElem msg.accounts meta hlt]
                simp only [hpos256]
                exact (beq_iff_eq).mp hkey
  | none =>
      rw [hfa] at h
      simp only at h
      cases h
      refine ⟨by simp, ?_, ?_⟩
      · intro j hj
        refine ⟨by simp; omega, ?_⟩
        rw [List.getElem_append_left hj]
      · intro hlen
        simp only [List.length_append, List.length_cons, List.length_nil] at hlen
        have hmod : msg.accounts.length % 256 = msg.accounts.length :=
          Nat.mod_eq_of_lt (by omega)
        refine ⟨by simp [hmod], ?_⟩
        simp only [hmod]
        rw [List.getElem_append_right (Nat.le_refl _)]
        simp

theorem compile_accounts_spec (metas : List AccountMeta) (msg : Message)
    (ids : List Nat) (msg₂ : Message)
    (h : msg.compile_accounts metas = .ok (ids, msg₂)) :
    (msg.accounts.length ≤ msg₂.accounts.length) ∧
    (∀ j (hj : j < msg.accounts.length),
      ∃ hj' : j < msg₂.accounts.length,
        (msg₂.accounts[j]).key = (msg.accounts[j]).key) ∧
    ids.length = metas.length ∧
    (msg₂.accounts.length ≤ 256 →
      ∀ k (hk : k < ids.length),
        ∃ (hi : ids[k] < msg₂.accounts.length) (hk2 : k < metas.length),
          (msg₂.accounts[ids[k]]).key = (metas[k]).key) := by
  induction metas generalizing msg ids with
  | nil =>
      unfold Message.compile_accounts at h
      cases h
      exact ⟨Nat.le_refl _, fun j hj => ⟨hj, rfl⟩, rfl, by simp⟩
  | cons m rest ih =>
      unfold Message.compile_accounts at h
      simp only [bind, Except.bind] at h
      cases hfa : msg.find_or_add_account m with
      | error e => rw [hfa] at h; exact absurd h (by simp)
      | ok p =>
          obtain ⟨idx, msg₁⟩ := p
          rw [hfa] at h
          simp only at h
          cases hca : msg₁.compile_accounts rest with
          | error e => rw [hca] at h; exact absurd h (by simp)
          | ok q =>
              obtain ⟨ids', msg₂'⟩ := q
              rw [hca] at h
              simp only at h
              cases h
              obtain ⟨⟨hlen1, -⟩, hkeys1, hidx1⟩ := find_or_add_spec _ _ _ _ hfa
              obtain ⟨hlen2, hkeys2, hlen_ids, hids2⟩ := ih _ _ hca
              refine ⟨Nat.le_trans hlen1 hlen2, ?_, by simp [hlen_ids], ?_⟩
              · intro j hj
                obtain ⟨hj1, hk1⟩ := hkeys1 j hj
                obtain ⟨hj2, hk2⟩ := hkeys2 j hj1
                exact ⟨hj2, by rw [hk2, hk1]⟩
              · intro hlen k hk
                match k with
                | 0 =>
                    obtain ⟨hi1, hk1⟩ := hidx1 (Nat.le_trans hlen2 hlen)
                    obtain ⟨hi2, hk2⟩ := hkeys2 idx hi1
                    exact ⟨by simpa using hi2, by simp,
                      by simpa using hk2.trans hk1⟩
                | k + 1 =>
                    obtain ⟨hi, hk2, hkey⟩ := hids2 hlen k (by simpa using hk)
                    exact ⟨by simpa using hi, by simpa using hk2,
                      by simpa using hkey⟩

/-- C10: while the account table stays within 256 entries, every index
produced by instruction compilation refers to the table entry whose key is
the compiled-from account's (or program's) key; but adding a fresh key to a
table already holding 256 entries returns the table length cast to `u8`,
which wraps to 0 without raising any error and no longer refers to the added
entry (pushed at position 256). -/
theorem C10_compiled_indices (msg : Message) (instr : Instruction)
    (ci : CompiledInstruction) (msg' : Message)
    (h : msg.compile_instruction instr = .ok (ci, msg'))
    (hlen : msg'.accounts.length ≤ 256) :
    ((∀ k (hk : k < ci.accounts.length),
        ∃ (hi : ci.accounts[k] < msg'.accounts.length)
          (hk2 : k < instr.accounts.length),
          (msg'.accounts[ci.accounts[k]]).key = (instr.accounts[k]).key) ∧
      (∃ hp : ci.program_account_id < msg'.accounts.length,
        (msg'.accounts[ci.program_account_id]).key = instr.program_id)) ∧
    (∀ (msg₀ : Message) (meta : AccountMeta),
      msg₀.accounts.length = 256 → msg₀.find_account meta.key = none →
      msg₀.find_or_add_account meta =
        .ok (0, { msg₀ with accounts := msg₀.accounts ++ [meta] })) := by
  constructor
  · unfold Message.compile_instruction at h
    simp only [bind, Except.bind] at h
    cases hca : msg.compile_accounts instr.accounts with
    | error e => rw [hca] at h; exact absurd h (by simp)
    | ok q =>
        obtain ⟨ids, msg₁⟩ := q
        rw [hca] at h
        simp only at h
        cases hpm : AccountMeta.program instr.program_id with
        | error e => rw [hpm] at h; exact absurd h (by simp)
        | ok pmeta =>
            rw [hpm] at h
            simp only at h
            cases hfa : msg₁.find_or_add_account pmeta with
            | error e => rw [hfa] at h; exact absurd h (by simp)
            | ok p =>
                obtain ⟨pid, msg₂⟩ := p
                rw [hfa] at h
                simp only at h
                cases h
                obtain ⟨-, hkeys1, -, hids1⟩ := compile_accounts_spec _ _ _ _ hca
                obtain ⟨⟨hlen2, -⟩, hkeys2, hidx2⟩ := find_or_add_spec _ _ _ _ hfa
                have hlen1 : msg₁.accounts.length ≤ 256 :=
                  Nat.le_trans hlen2 hlen
                constructor
                · intro k hk
                  obtain ⟨hi, hk2, hkey⟩ := hids1 hlen1 k hk
                  obtain ⟨hi2, hkeep⟩ := hkeys2 _ hi
                  exact ⟨hi2, hk2, by rw [hkeep, hkey]⟩
                · obtain ⟨hp, hkey⟩ := hidx2 hlen
                  have hpk : pmeta.key = instr.program_id := by
                    unfold AccountMeta.program at hpm
                    by_cases hoc : instr.program_id.is_oncurve
                    · simp [hoc] at hpm
                    · simp only [hoc, Bool.false_eq_true, if_neg] at hpm
                      cases hpm
                      rfl
                  exact ⟨hp, by rw [hkey, hpk]⟩
  · intro msg₀ meta h256 hnone
    unfold Message.find_or_add_account
    rw [hnone, h256]

/-- A message whose account table already holds 256 distinct keys. -/
def exMsg256 : Message :=
  ⟨0, [], (List.range 256).map (fun i => ⟨⟨i, true⟩, .wallet, .no⟩)⟩

/-- A meta whose key is fresh for `exMsg256`. -/
def exMetaNew : AccountMeta := ⟨⟨999, true⟩, .wallet, .no⟩

set_option maxRecDepth 8000 in
/-- Witness for C10: a concrete compiled instruction, and the wrapping
`find_or_add_account` on a full 256-entry table returning index 0. -/
theorem C10_compiled_indices_witness :
    exMsg256.find_or_add_account exMetaNew =
      .ok (0, { exMsg256 with accounts := exMsg256.accounts ++ [exMetaNew] }) := by
  have h := C10_compiled_indices (⟨0, [], []⟩ : Message)
    ⟨⟨5, false⟩, [⟨exKeyA, .signing, .yes⟩, ⟨exKeyB, .wallet, .no⟩], [7]⟩
    ⟨2, [7], [0, 1]⟩
    ⟨0, [], [⟨exKeyA, .signing, .yes⟩, ⟨exKeyB, .wallet, .no⟩,
      ⟨⟨5, false⟩, .program, .no⟩]⟩
    (by decide) (by decide)
  exact h.2 exMsg256 exMetaNew (by decide) (by decide)

/-! Trash lemmas for C8. -/

/-- Well-formedness of the trash: file keys are unique and no file's range
list holds a duplicate. -/
def trash_wf (t : Trash) : Prop :=
  (t.trash.map (·.1)).Nodup ∧ ∀ pr ∈ t.trash, pr.2.Nodup

theorem mem_keys_alistInsert {κ ν : Type} [DecidableEq κ]
    (l : List (κ × ν)) (k : κ) (v : ν) (y : κ) :
    y ∈ (alistInsert l k v).map (·.1) → y ∈ l.map (·.1) ∨ y = k := by
  induction l with
  | nil =>
      intro h
      simpa [alistInsert] using h
  | cons p rest ih =>
      obtain ⟨k₁, v₁⟩ := p
      intro h
      by_cases hk : k₁ = k
      · subst hk
        simp [alistInsert] at h ⊢
        tauto
      · simp only [alistInsert, if_neg hk, List.map_cons, List.mem_cons] at h
        rcases h with h1 | h1
        · exact Or.inl (by simp [h1])
        · rcases ih h1 with h2 | h2
          · exact Or.inl (by
              simp only [List.map_cons, List.mem_cons]
              exact Or.inr h2)
          · exact Or.inr h2

theorem alistInsert_keys_nodup {κ ν : Type} [DecidableEq κ]
    (l : List (κ × ν)) (k : κ) (v : ν)
    (h : (l.map (·.1)).Nodup) : ((alistInsert l k v).map (·.1)).Nodup := by
  induction l with
  | nil => simp [alistInsert]
  | cons p rest ih =>
      obtain ⟨k₁, v₁⟩ := p
      simp only [List.map_cons, List.nodup_cons] at h
      by_cases hk : k₁ = k
      · subst hk
        simpa [alistInsert, List.nodup_cons] using h
      · simp only [alistInsert, if_neg hk, List.map_cons, List.nodup_cons]
        refine ⟨?_, ih h.2⟩
        intro hmem
        rcases mem_keys_alistInsert rest k v k₁ hmem with h2 | h2
        · exact h.1 h2
        · exact hk h2

theorem mem_alistInsert {κ ν : Type} [DecidableEq κ]
    (l : List (κ × ν)) (k : κ) (v : ν) (pr : κ × ν) :
    pr ∈ alistInsert l k v → pr = (k, v) ∨ pr ∈ l := by
  induction l with
  | nil =>
      intro h
      simpa [alistInsert] using h
  | cons p rest ih =>
      obtain ⟨k₁, v₁⟩ := p
      intro h
      by_cases hk : k₁ = k
      · subst hk
        simp [alistInsert] at h
        simp only [List.mem_cons]
        tauto
      · simp only [alistInsert, if_neg hk, List.mem_cons] at h
        rcases h with h1 | h1
        · exact Or.inr (by simp [h1])
        · rcases ih h1 with h2 | h2
          · exact Or.inl h2
          · exact Or.inr (List.mem_cons_of_mem _ h2)

theorem alistFind?_mem {κ ν : Type} [DecidableEq κ]
    (l : List (κ × ν)) (k : κ) (v : ν) :
    alistFind? l k = some v → (k, v) ∈ l := by
  induction l with
  | nil =>
      intro h
      simp [alistFind?] at h
  | cons p rest ih =>
      obtain ⟨k₁, v₁⟩ := p
      intro h
      rw [alistFind?_cons] at h
      by_cases hk : k₁ = k
      · simp only [if_pos hk] at h
        cases h
        subst hk
        exact List.mem_cons_self _ _
      · simp only [if_neg hk] at h
        exact List.mem_cons_of_mem _ (ih h)

theorem trash_insert_wf (t t' : Trash) (loc : AccountDiskLocation)
    (hwf : trash_wf t) (h : t.insert loc = .ok t') : trash_wf t' := by
  unfold Trash.insert at h
  by_cases hdup : Loc.from_loc loc ∈
      (alistFind? t.trash (AccountFile.from_loc loc)).getD []
  · simp only [if_pos hdup] at h
    exact absurd h (by simp)
  · simp only [if_neg hdup] at h
    cases h
    constructor
    · exact alistInsert_keys_nodup _ _ _ hwf.1
    · intro pr hpr
      rcases mem_alistInsert _ _ _ _ hpr with h2 | h2
      · subst h2
        simp only
        cases hfind : alistFind? t.trash (AccountFile.from_loc loc) with
        | none => simp [hfind] at hdup ⊢
        | some entry =>
            simp only [hfind, Option.getD_some] at hdup ⊢
            have hmem := alistFind?_mem _ _ _ hfind
            have hnd := hwf.2 _ hmem
            simpa [List.nodup_append] using ⟨hnd, hdup⟩
      · exact hwf.2 _ h2

/-- C8: on a save for a key already in the index, the key's previous location
is enrolled in the trash, and only then is the index entry overwritten (a
failing trash insert aborts the save before the index changes); inserting a
range already recorded for a segment file fails with
DuplicateLocationInTrash, so a well-formed trash never holds the same
(offset, size) range twice for one file. -/
theorem C8_trash_before_index_overwrite (v : Vault) (key : Pubkey)
    (w : Wallet) (slot : Nat) (oldLoc : AccountDiskLocation)
    (hfind : v.index.find key = some oldLoc) :
    (∀ v', v.save_account key w slot = .ok v' →
      Loc.from_loc oldLoc ∈
        (alistFind? v'.trash.trash (AccountFile.from_loc oldLoc)).getD [] ∧
      (∃ newLoc, v'.index.find key = some newLoc) ∧
      (trash_wf v.trash → trash_wf v'.trash)) ∧
    (Loc.from_loc oldLoc ∈
        (alistFind? v.trash.trash (AccountFile.from_loc oldLoc)).getD [] →
      v.save_account key w slot =
        .error (.duplicateLocationInTrash oldLoc)) := by
  constructor
  · intro v' hok
    unfold Vault.save_account at hok
    rw [hfind] at hok
    simp only [bind, Except.bind] at hok
    cases hins : v.trash.insert oldLoc with
    | error e => rw [hins] at hok; exact absurd hok (by simp)
    | ok t =>
        rw [hins] at hok
        simp only at hok
        cases hok
        have htrash : ((new_from_write { v with trash := t } w slot).2).trash
            = t := new_from_write_trash _ _ _
        refine ⟨?_, ⟨_, by
          unfold Index.find Index.set_account
          simp only
          rw [alistFind?_insert_self]⟩, ?_⟩
        · simp only [htrash]
          unfold Trash.insert at hins
          by_cases hdup : Loc.from_loc oldLoc ∈
              (alistFind? v.trash.trash (AccountFile.from_loc oldLoc)).getD []
          · simp only [if_pos hdup] at hins
            exact absurd hins (by simp)
          · simp only [if_neg hdup] at hins
            cases hins
            simp only
            rw [alistFind?_insert_self]
            simp
        · intro hwf
          simp only [htrash]
          exact trash_insert_wf _ _ _ hwf hins
  · intro hdup
    unfold Vault.save_account
    rw [hfind]
    simp only [bind, Except.bind]
    unfold Trash.insert
    rw [if_pos hdup]

/-- A vault whose trash already records the location currently indexed for
`exKeyA`, so saving that key again must fail. -/
def exVaultDup : Vault :=
  { exVault1 with
    trash := ⟨[(⟨0, 0⟩, [⟨0, 8⟩])]⟩ }

/-- Witness for C8 at a concrete vault: a re-save enrolls the old location
in the trash, and a save whose old location is already trashed fails. -/
theorem C8_trash_before_index_overwrite_witness :
    Loc.from_loc ⟨0, 0, 0, 8⟩ ∈
      (alistFind?
        ((exVault1.save_account exKeyA ⟨7⟩ 0).toOption.getD exVault0).trash.trash
        (AccountFile.from_loc ⟨0, 0, 0, 8⟩)).getD [] ∧
    exVaultDup.save_account exKeyA ⟨7⟩ 0 =
      .error (.duplicateLocationInTrash ⟨0, 0, 0, 8⟩) := by
  constructor
  · exact ((C8_trash_before_index_overwrite exVault1 exKeyA ⟨7⟩ 0
      ⟨0, 0, 0, 8⟩ (by decide)).1
      ((exVault1.save_account exKeyA ⟨7⟩ 0).toOption.getD exVault0)
      (by decide)).1
  · exact (C8_trash_before_index_overwrite exVaultDup exKeyA ⟨7⟩ 0
      ⟨0, 0, 0, 8⟩ (by decide)).2 (by decide)

/-! Admission (C4). -/

/-- The admission conditions exactly as the claim states them: at least one
Signing meta, as many signatures as Signing metas, and every signer with
exactly one verifying signature. -/
def claimed_admission (verify : SigVerifier) (trx : Transaction) : Prop :=
  trx.get_signers ≠ [] ∧
  trx.signatures.length = trx.get_signers.length ∧
  ∀ s ∈ trx.get_signers,
    trx.signatures.countP (fun sig => verify sig s trx.message) = 1

/-- C4 as stated: acceptance (with enqueue) iff the claimed conditions, and
rejection with InvalidTransactionSignatures otherwise. -/
def C4_claim_as_stated : Prop :=
  ∀ (verify : SigVerifier) (queue : List Transaction) (trx : Transaction),
    (register_transaction verify queue trx = .ok (queue ++ [trx]) ↔
      claimed_admission verify trx) ∧
    (¬ claimed_admission verify trx →
      register_transaction verify queue trx =
        .error .invalidTransactionSignatures)

/-- A signature verifier for concrete tests: a signature is the numeric
value of the key it signs for (the message is ignored). -/
def exVerify : SigVerifier := fun sig key _m => sig == key.val

/-- A properly signed transaction with a payer but no instructions. -/
def exTrxNoInstr : Transaction := ⟨[10], ⟨0, [], [⟨exKeyA, .signing, .yes⟩]⟩⟩

/-- C4 counterexample: a signed transaction with no instructions meets all
the claim's conditions, yet `register_transaction` rejects it (admission
also requires a non-empty message), so the claimed equivalence is false. -/
theorem C4_counterexample_empty_instructions : ¬ C4_claim_as_stated := by
  intro hc
  have h := (hc exVerify [] exTrxNoInstr).1.mpr (by
    refine ⟨by decide, by decide, ?_⟩
    decide)
  have h2 : register_transaction exVerify [] exTrxNoInstr =
      .error .invalidTransactionSignatures := by decide
  rw [h2] at h
  exact Except.noConfusion h

theorem except_unit_ok_iff {e : Except TransactionError Unit} :
    (match e with | .ok _ => true | .error _ => false) = true ↔ e = .ok () := by
  cases e with
  | ok u => cases u; simp
  | error a => simp

theorem check_signed_ok_iff (verify : SigVerifier) (trx : Transaction) :
    trx.check_signed verify = .ok () ↔
      (trx.get_signers ≠ [] ∧
        trx.signatures.length = trx.get_signers.length ∧
        ∀ s ∈ trx.get_signers,
          ∃ sig ∈ trx.signatures, verify sig s trx.message = true) := by
  unfold Transaction.check_signed
  by_cases h1 : trx.get_signers.isEmpty
  · rw [if_pos h1]
    simp [List.isEmpty_iff.mp h1]
  · rw [if_neg h1]
    have h1' : trx.get_signers ≠ [] := fun hh => h1 (by simp [hh])
    by_cases h2 : trx.get_signers.length = trx.signatures.length
    · rw [if_neg (by omega)]
      by_cases h3 : trx.get_signers.all (fun s =>
          trx.signatures.any (fun sig => verify sig s trx.message))
      · rw [if_pos h3]
        constructor
        · intro _
          refine ⟨h1', h2.symm, ?_⟩
          simpa [List.all_eq_true, List.any_eq_true] using h3
        · intro _
          rfl
      · rw [if_neg h3]
        constructor
        · intro hh
          exact absurd hh (by simp)
        · intro hh
          exact absurd (by
            simpa [List.all_eq_true, List.any_eq_true] using hh.2.2) h3
    · rw [if_pos (by omega)]
      constructor
      · intro hh
        exact absurd hh (by simp)
      · intro hh
        exact absurd hh.2.1.symm h2

theorem is_valid_iff (verify : SigVerifier) (trx : Transaction) :
    trx.is_valid verify = true ↔
      (trx.message.instructions ≠ [] ∧ trx.message.accounts ≠ [] ∧
        trx.get_signers ≠ [] ∧
        trx.signatures.length = trx.get_signers.length ∧
        ∀ s ∈ trx.get_signers,
          ∃ sig ∈ trx.signatures, verify sig s trx.message = true) := by
  unfold Transaction.is_valid Message.is_valid
  rw [Bool.and_eq_true, Bool.and_eq_true, except_unit_ok_iff,
    check_signed_ok_iff]
  simp only [Bool.not_eq_eq_eq_not, Bool.not_true, List.isEmpty_eq_false]
  tauto

/-- C4 (amended): a transaction is accepted by `register_transaction` and
appended to the queue iff its message has at least one instruction and at
least one account, there is at least one Signing meta, the number of
signatures equals the number of signers, and every signer has at least one
signature verifying against the serialized message; otherwise it returns
InvalidTransactionSignatures and the queue is untouched. -/
theorem C4_admission (verify : SigVerifier) (queue : List Transaction)
    (trx : Transaction) :
    (register_transaction verify queue trx = .ok (queue ++ [trx]) ↔
      (trx.message.instructions ≠ [] ∧ trx.message.accounts ≠ [] ∧
        trx.get_signers ≠ [] ∧
        trx.signatures.length = trx.get_signers.length ∧
        ∀ s ∈ trx.get_signers,
          ∃ sig ∈ trx.signatures, verify sig s trx.message = true)) ∧
    (¬ (trx.message.instructions ≠ [] ∧ trx.message.accounts ≠ [] ∧
        trx.get_signers ≠ [] ∧
        trx.signatures.length = trx.get_signers.length ∧
        ∀ s ∈ trx.get_signers,
          ∃ sig ∈ trx.signatures, verify sig s trx.message = true) →
      register_transaction verify queue trx =
        .error .invalidTransactionSignatures) := by
  constructor
  · constructor
    · intro hreg
      unfold register_transaction at hreg
      by_cases hv : trx.is_valid verify
      · exact (is_valid_iff verify trx).mp hv
      · rw [if_neg (by simpa using hv)] at hreg
        exact absurd hreg (by simp)
    · intro hc
      unfold register_transaction
      rw [if_pos ((is_valid_iff verify trx).mpr hc)]
  · intro hnc
    unfold register_transaction
    rw [if_neg (fun hv => hnc ((is_valid_iff verify trx).mp hv))]

/-- Witness for C4 at concrete transactions: a signed transfer-shaped
transaction is accepted and enqueued; an unsigned one is rejected. -/
theorem C4_admission_witness :
    register_transaction exVerify []
        ⟨[10], ⟨0, [⟨2, [], [0, 1]⟩],
          [⟨exKeyA, .signing, .yes⟩, ⟨exKeyB, .wallet, .yes⟩,
            ⟨⟨5, false⟩, .program, .no⟩]⟩⟩ =
      .ok [⟨[10], ⟨0, [⟨2, [], [0, 1]⟩],
        [⟨exKeyA, .signing, .yes⟩, ⟨exKeyB, .wallet, .yes⟩,
          ⟨⟨5, false⟩, .program, .no⟩]⟩⟩] ∧
    register_transaction exVerify []
        ⟨[], ⟨0, [⟨2, [], [0, 1]⟩], [⟨exKeyA, .signing, .yes⟩]⟩⟩ =
      .error .invalidTransactionSignatures := by
  constructor
  · exact (C4_admission exVerify []
      ⟨[10], ⟨0, [⟨2, [], [0, 1]⟩],
        [⟨exKeyA, .signing, .yes⟩, ⟨exKeyB, .wallet, .yes⟩,
          ⟨⟨5, false⟩, .program, .no⟩]⟩⟩).1.mpr
      (by refine ⟨by decide, by decide, by decide, by decide, ?_⟩; decide)
  · exact (C4_admission exVerify []
      ⟨[], ⟨0, [⟨2, [], [0, 1]⟩], [⟨exKeyA, .signing, .yes⟩]⟩⟩).2
      (by decide)

/-! Executor lemmas and claims C2, C3. -/

/-- The failure kinds C2 enumerates: unknown program, program error
(payload or custom), account error (read-only violation, arithmetic,
missing accounts), and conservation violation. -/
def ProcessError.is_execution_failure : ProcessError → Bool
  | .unknownProgram _ => true
  | .invalidPayload => true
  | .custom => true
  | .accountError _ => true
  | .prismTotalChanged => true
  | _ => false

theorem save_accounts_error_is_storage (pairs : List (AccountMeta × Nat))
    (v v' : Vault) (slot : Nat) (e : ProcessError)
    (h : save_accounts v pairs slot = (v', some e)) :
    ∃ es, e = .storage es := by
  induction pairs generalizing v with
  | nil =>
      unfold save_accounts at h
      cases h
  | cons pr rest ih =>
      obtain ⟨m, p⟩ := pr
      unfold save_accounts at h
      by_cases hw : m.is_writable
      · rw [if_pos hw] at h
        cases hs : v.save_account m.key ⟨p⟩ slot with
        | error es =>
            rw [hs] at h
            cases h
            exact ⟨es, rfl⟩
        | ok v₁ =>
            rw [hs] at h
            exact ih v₁ h
      · rw [if_neg hw] at h
        exact ih v h

/-- C2: whenever a transaction's execution fails with one of the enumerated
kinds (unknown program, program error, read-only violation, arithmetic
error, conservation violation), the vault is returned exactly as it was: all
those failures occur before `save_accounts` runs, and the save loop itself
can only fail with storage errors. -/
theorem C2_failed_execution_leaves_vault (v : Vault) (trx : Transaction)
    (v' : Vault) (e : ProcessError)
    (h : execute_transaction_inner v trx = (v', some e))
    (he : e.is_execution_failure = true) : v' = v := by
  unfold execute_transaction_inner at h
  cases hp : trx.message.get_payer with
  | none =>
      rw [hp] at h
      cases h
      rfl
  | some payer =>
      rw [hp] at h
      dsimp only at h
      cases hga : get_transaction_accounts v trx.message.accounts with
      | error es =>
          rw [hga] at h
          cases h
          rfl
      | ok wallets =>
          rw [hga] at h
          cases hfi : trx.message.accounts.findIdx? (fun m => m.key == payer) with
          | none =>
              rw [hfi] at h
              cases h
              rfl
          | some payer_id =>
              rw [hfi] at h
              dsimp only at h
              cases hri : run_instructions trx.message.accounts
                  trx.message.instructions
                  ((wallets.map (·.prisms)).set payer_id
                    (((wallets.map (·.prisms)).getD payer_id 0 +
                      (U64_MOD - TRANSACTION_FEE)) % U64_MOD)) with
              | error er =>
                  rw [hri] at h
                  cases h
                  rfl
              | ok ws₂ =>
                  rw [hri] at h
                  dsimp only at h
                  by_cases htot : wrap_fold_sum
                      ((wallets.map (·.prisms)).set payer_id
                        (((wallets.map (·.prisms)).getD payer_id 0 +
                          (U64_MOD - TRANSACTION_FEE)) % U64_MOD)) ≠
                      wrap_fold_sum ws₂
                  · rw [if_pos htot] at h
                    cases h
                    rfl
                  · rw [if_neg htot] at h
                    obtain ⟨es, hes⟩ := save_accounts_error_is_storage _ _ _ _ _ h
                    subst hes
                    simp [ProcessError.is_execution_failure] at he

/-- Witness for C2 at a concrete failing transaction: a transfer through an
unregistered program fails with UnknownProgram and the vault is unchanged. -/
theorem C2_failed_execution_leaves_vault_witness :
    (execute_transaction_inner exVault1
        ⟨[10], ⟨0, [⟨2, [], [0, 1]⟩],
          [⟨exKeyA, .signing, .yes⟩, ⟨exKeyB, .wallet, .yes⟩,
            ⟨⟨5, false⟩, .program, .no⟩]⟩⟩).1 = exVault1 := by
  exact C2_failed_execution_leaves_vault exVault1
    ⟨[10], ⟨0, [⟨2, [], [0, 1]⟩],
      [⟨exKeyA, .signing, .yes⟩, ⟨exKeyB, .wallet, .yes⟩,
        ⟨⟨5, false⟩, .program, .no⟩]⟩⟩
    (execute_transaction_inner exVault1
      ⟨[10], ⟨0, [⟨2, [], [0, 1]⟩],
        [⟨exKeyA, .signing, .yes⟩, ⟨exKeyB, .wallet, .yes⟩,
          ⟨⟨5, false⟩, .program, .no⟩]⟩⟩).1
    (.unknownProgram ⟨5, false⟩) (by decide) (by decide)

/-- A transaction whose payer holds 0 prisms (never saved) and which carries
no instructions. -/
def exTrxFeeOnly : Transaction := ⟨[10], ⟨0, [], [⟨exKeyA, .signing, .yes⟩]⟩⟩

/-- C3: evaluation of the code at the failing input. The payer holds 0
prisms, fewer than TRANSACTION_FEE, yet the fee debit — the source's
unchecked `prisms -= TRANSACTION_FEE`, which wraps modulo 2^64 in release
builds — does not fail: the executor commits and persists the wrapped
balance 2^64 − 5000 instead of reporting a failure. -/
theorem C3_fee_debit_wraps_on_underfunded_payer :
    (execute_transaction_inner exVault0 exTrxFeeOnly).2 = none ∧
    ((execute_transaction_inner exVault0 exTrxFeeOnly).1).get exKeyA =
      .ok ⟨U64_MOD - TRANSACTION_FEE⟩ := by
  decide

/-! Cleanup lemmas and claim C7. -/

theorem new_from_write_disk_presence (v : Vault) (w : Wallet) (slot : Nat)
    (f : AccountFile) (hp : alistFind? v.disk f ≠ none) :
    alistFind? ((new_from_write v w slot).2).disk f ≠ none := by
  cases hfind : alistFind? v.disk f with
  | none => exact absurd hfind hp
  | some bs =>
      obtain ⟨tail, htail⟩ := new_from_write_disk_extends v w slot f bs hfind
      rw [htail]
      simp

theorem relocate_go_preserves_presence (keys : List Pubkey) (v v₁ : Vault)
    (slot : Nat) (h : v.relocate_go slot keys = .ok v₁) (f : AccountFile)
    (hp : alistFind? v.disk f ≠ none) : alistFind? v₁.disk f ≠ none := by
  induction keys generalizing v with
  | nil =>
      unfold Vault.relocate_go at h
      cases h
      exact hp
  | cons k rest ih =>
      unfold Vault.relocate_go at h
      cases hfi : v.index.find k with
      | none => rw [hfi] at h; exact absurd h (by simp)
      | some loc =>
          rw [hfi] at h
          simp only [bind, Except.bind] at h
          cases hr : read_from_file_map v.disk loc with
          | error e => rw [hr] at h; exact absurd h (by simp)
          | ok w =>
              rw [hr] at h
              dsimp only at h
              refine ih { (new_from_write v w slot).2 with
                index := ((new_from_write v w slot).2).index.set_account k
                  (new_from_write v w slot).1 } ?_ ?_
              · exact h
              · exact new_from_write_disk_presence v w slot f hp

theorem get_files_to_clean_spec (t : Trash) (f : AccountFile)
    (h : f ∈ t.get_files_to_clean) :
    ∃ locs, (f, locs) ∈ t.trash ∧
      MAX_ACCOUNT_FILE_SIZE / 2 ≤ wrap_fold_sum (locs.map (·.size)) := by
  unfold Trash.get_files_to_clean at h
  obtain ⟨pr, hpr, hfst⟩ := List.mem_map.mp h
  obtain ⟨hmem, hpred⟩ := List.mem_filter.mp hpr
  refine ⟨pr.2, ?_, by simpa using hpred⟩
  rw [← hfst]
  simpa using hmem

theorem cleanup_go_spec (files : List AccountFile) (v : Vault) (s : Nat) :
    (∀ f, f.slot = s → alistFind? v.disk f ≠ none →
        alistFind? ((v.cleanup_go files s).1).disk f ≠ none) ∧
    (∀ f, alistFind? v.disk f ≠ none →
        alistFind? ((v.cleanup_go files s).1).disk f = none →
        f ∈ files ∧ f.slot ≠ s) := by
  induction files generalizing v with
  | nil =>
      unfold Vault.cleanup_go
      exact ⟨fun f _ hp => hp, fun f hp habs => absurd habs hp⟩
  | cons f₀ rest ih =>
      unfold Vault.cleanup_go
      by_cases hslot : f₀.slot = s
      · rw [if_pos hslot]
        refine ⟨fun f hf hp => (ih v).1 f hf hp, fun f hp habs => ?_⟩
        obtain ⟨hmem, hne⟩ := (ih v).2 f hp habs
        exact ⟨List.mem_cons_of_mem _ hmem, hne⟩
      · rw [if_neg hslot]
        cases hrel : v.relocate_accounts f₀.slot f₀.id with
        | error e =>
            dsimp only
            exact ⟨fun f _ hp => hp, fun f hp habs => absurd habs hp⟩
        | ok v₁ =>
            dsimp only
            have hpres : ∀ f, alistFind? v.disk f ≠ none →
                alistFind? v₁.disk f ≠ none := by
              intro f hp
              exact relocate_go_preserves_presence _ v v₁ f₀.slot hrel f hp
            cases hdf : alistFind? v₁.disk f₀ with
            | none =>
                dsimp only
                exact ⟨fun f hf hp => hpres f hp,
                  fun f hp habs => absurd habs (hpres f hp)⟩
            | some bs =>
                dsimp only
                constructor
                · intro f hf hp
                  have hne : f ≠ f₀ := by
                    intro hh
                    rw [hh] at hf
                    exact hslot hf
                  exact (ih _).1 f hf (by
                    show alistFind? (alistErase v₁.disk f₀) f ≠ none
                    rw [alistFind?_erase_other _ _ _ hne]
                    exact hpres f hp)
                · intro f hp habs
                  by_cases hfe : f = f₀
                  · exact ⟨by rw [hfe]; exact List.mem_cons_self _ _,
                      by rw [hfe]; exact hslot⟩
                  · obtain ⟨hmem, hne2⟩ := (ih _).2 f (by
                      show alistFind? (alistErase v₁.disk f₀) f ≠ none
                      rw [alistFind?_erase_other _ _ _ hfe]
                      exact hpres f hp) habs
                    exact ⟨List.mem_cons_of_mem _ hmem, hne2⟩

/-- C7: `cleanup(current_slot = s)` never deletes a segment file whose slot
is `s`, and every file it does delete had a trashed-byte total of at least
MAX_ACCOUNT_FILE_SIZE / 2 recorded in the trash and a slot different from
`s`. -/
theorem C7_cleanup_skips_current_slot (v : Vault) (s : Nat) :
    (∀ f, f.slot = s → alistFind? v.disk f ≠ none →
        alistFind? ((v.cleanup s).1).disk f ≠ none) ∧
    (∀ f, alistFind? v.disk f ≠ none →
        alistFind? ((v.cleanup s).1).disk f = none →
        f.slot ≠ s ∧ ∃ locs, (f, locs) ∈ v.trash.trash ∧
          MAX_ACCOUNT_FILE_SIZE / 2 ≤ wrap_fold_sum (locs.map (·.size))) := by
  unfold Vault.cleanup
  obtain ⟨h1, h2⟩ := cleanup_go_spec (v.trash.get_files_to_clean) v s
  refine ⟨h1, fun f hp habs => ?_⟩
  obtain ⟨hmem, hne⟩ := h2 f hp habs
  exact ⟨hne, get_files_to_clean_spec v.trash f hmem⟩

/-- A vault with two fully trashed segment files, one for slot 0 and one for
slot 1, both above the cleaning threshold. -/
def exVaultTrash : Vault :=
  ⟨⟨[]⟩,
   ⟨[(⟨0, 0⟩, [⟨0, 200⟩]), (⟨1, 0⟩, [⟨0, 200⟩])]⟩,
   [(⟨0, 0⟩, List.replicate 200 0), (⟨1, 0⟩, List.replicate 200 0)]⟩

/-- Witness for C7: cleaning at current slot 1 keeps the slot-1 segment on
disk, and the removed segment's slot differs from 1. -/
theorem C7_cleanup_skips_current_slot_witness :
    alistFind? ((exVaultTrash.cleanup 1).1).disk ⟨1, 0⟩ ≠ none ∧
    ((⟨0, 0⟩ : AccountFile)).slot ≠ 1 := by
  refine ⟨(C7_cleanup_skips_current_slot exVaultTrash 1).1 ⟨1, 0⟩ rfl
    (by decide), ?_⟩
  exact ((C7_cleanup_skips_current_slot exVaultTrash 1).2 ⟨0, 0⟩
    (by decide) (by decide)).1

/-! Working-set invariants for C1. -/

/-- A placeholder meta for `getD` lookups that are always in bounds. -/
def dummy_meta : AccountMeta := ⟨⟨0, false⟩, .program, .no⟩

/-- The facts preserved by one working-set mutation step: length, u64
bounds, and the balances of read-only metas. -/
def ws_step_ok (metas : List AccountMeta) (ws ws' : List Nat) : Prop :=
  ws'.length = ws.length ∧
  ((∀ x ∈ ws, x < U64_MOD) → ∀ x ∈ ws', x < U64_MOD) ∧
  (∀ i, i < metas.length → (metas.getD i dummy_meta).is_writable = false →
    ws'.getD i 0 = ws.getD i 0)

theorem ws_step_refl (metas : List AccountMeta) (ws : List Nat) :
    ws_step_ok metas ws ws :=
  ⟨rfl, fun h => h, fun _ _ _ => rfl⟩

theorem ws_step_trans (metas : List AccountMeta) (ws₁ ws₂ ws₃ : List Nat)
    (h1 : ws_step_ok metas ws₁ ws₂) (h2 : ws_step_ok metas ws₂ ws₃) :
    ws_step_ok metas ws₁ ws₃ :=
  ⟨h2.1.trans h1.1, fun hb => h2.2.1 (h1.2.1 hb),
   fun i hi hro => (h2.2.2 i hi hro).trans (h1.2.2 i hi hro)⟩

theorem getD_set_ne (l : List Nat) (i j v : Nat) (h : i ≠ j) :
    (l.set i v).getD j 0 = l.getD j 0 := by
  rw [List.getD_eq_getElem?_getD, List.getD_eq_getElem?_getD,
    List.getElem?_set_ne h]

/-- Provenance of the transaction accounts handed to a program: each is the
view of the meta at its own working-set slot. -/
def tas_from_metas (metas : List AccountMeta)
    (tas : List TransactionAccount) : Prop :=
  ∀ ta ∈ tas, ta.idx < metas.length ∧
    ta = TransactionAccount.new (metas.getD ta.idx dummy_meta) ta.idx

theorem resolve_instruction_accounts_spec (metas : List AccountMeta)
    (ids : List Nat) (tas : List TransactionAccount)
    (h : resolve_instruction_accounts metas ids = some tas) :
    tas_from_metas metas tas := by
  induction ids generalizing tas with
  | nil =>
      unfold resolve_instruction_accounts at h
      cases h
      intro ta hta
      simp at hta
  | cons i rest ih =>
      unfold resolve_instruction_accounts at h
      cases hg : metas.get? i with
      | none => rw [hg] at h; exact absurd h (by simp)
      | some m =>
          rw [hg] at h
          cases hr : resolve_instruction_accounts metas rest with
          | none => rw [hr] at h; exact absurd h (by simp)
          | some tas' =>
              rw [hr] at h
              simp only [Option.map_some'] at h
              cases h
              intro ta hta
              rcases List.mem_cons.mp hta with hta | hta
              · subst hta
                have hlt : i < metas.length := by
                  by_contra hge
                  rw [List.get?_eq_none.mpr (by omega)] at hg
                  exact Option.noConfusion hg
                refine ⟨hlt, ?_⟩
                have hm : metas.getD i dummy_meta = m := by
                  rw [List.getD_eq_getElem metas dummy_meta hlt]
                  have h2 := List.get?_eq_getElem? metas i
                  rw [h2, List.getElem?_eq_getElem hlt] at hg
                  exact (Option.some.inj hg)
                show TransactionAccount.new m i =
                  TransactionAccount.new (metas.getD i dummy_meta) i
                rw [hm]
              · exact ih tas' hr ta hta

theorem set_prisms_step (metas : List AccountMeta)
    (ta : TransactionAccount) (ws : List Nat) (r : Nat) (ws' : List Nat)
    (hta : ta.idx < metas.length ∧
      ta = TransactionAccount.new (metas.getD ta.idx dummy_meta) ta.idx)
    (hr : r < U64_MOD)
    (h : ta.set_prisms ws r = .ok ws') : ws_step_ok metas ws ws' := by
  unfold TransactionAccount.set_prisms at h
  by_cases hro : ta.readonly
  · rw [if_pos hro] at h
    exact absurd h (by simp)
  · rw [if_neg hro] at h
    cases h
    refine ⟨List.length_set _ _ _, ?_, ?_⟩
    · intro hb x hx
      rcases List.mem_or_eq_of_mem_set hx with hx | hx
      · exact hb x hx
      · rw [hx]; exact hr
    · intro i hi hrw
      have hne : ta.idx ≠ i := by
        intro hh
        rw [hta.2] at hro
        simp only [TransactionAccount.new, Bool.not_eq_true] at hro
        rw [hh] at hro
        simp only [Bool.not_eq_false'] at hro
        rw [hro] at hrw
        exact Bool.noConfusion hrw
      exact getD_set_ne ws ta.idx i _ hne

theorem add_prisms_step (metas : List AccountMeta)
    (ta : TransactionAccount) (ws : List Nat) (n : Nat) (ws' : List Nat)
    (hta : ta.idx < metas.length ∧
      ta = TransactionAccount.new (metas.getD ta.idx dummy_meta) ta.idx)
    (h : ta.add_prisms ws n = .ok ws') : ws_step_ok metas ws ws' := by
  unfold TransactionAccount.add_prisms checked_add at h
  by_cases hov : ws.getD ta.idx 0 + n < U64_MOD
  · rw [if_pos hov] at h
    exact set_prisms_step metas ta ws _ ws' hta hov h
  · rw [if_neg hov] at h
    exact absurd h (by simp)

theorem sub_prisms_step (metas : List AccountMeta)
    (ta : TransactionAccount) (ws : List Nat) (n : Nat) (ws' : List Nat)
    (hta : ta.idx < metas.length ∧
      ta = TransactionAccount.new (metas.getD ta.idx dummy_meta) ta.idx)
    (hb : ∀ x ∈ ws, x < U64_MOD)
    (h : ta.sub_prisms ws n = .ok ws') : ws_step_ok metas ws ws' := by
  unfold TransactionAccount.sub_prisms checked_sub at h
  by_cases hun : n ≤ ws.getD ta.idx 0
  · rw [if_pos hun] at h
    have hlt : ws.getD ta.idx 0 - n < U64_MOD := by
      have : ws.getD ta.idx 0 < U64_MOD := by
        by_cases hidx : ta.idx < ws.length
        · exact hb _ (by
            rw [List.getD_eq_getElem ws 0 hidx]
            exact List.getElem_mem hidx)
        · rw [List.getD_eq_default ws 0 (by omega)]
          simp [U64_MOD]
      omega
    exact set_prisms_step metas ta ws _ ws' hta hlt h
  · rw [if_neg hun] at h
    exact absurd h (by simp)

theorem system_transfer_step (metas : List AccountMeta)
    (tas : List TransactionAccount) (amount : Nat) (ws ws' : List Nat)
    (htas : tas_from_metas metas tas) (hb : ∀ x ∈ ws, x < U64_MOD)
    (h : system_transfer tas amount ws = .ok ws') :
    ws_step_ok metas ws ws' := by
  unfold system_transfer at h
  cases tas with
  | nil => exact absurd h (by simp)
  | cons payer rest =>
      dsimp only at h
      by_cases hs : payer.is_signer
      · rw [if_neg (by simp [hs])] at h
        cases rest with
        | nil => exact absurd h (by simp)
        | cons receiver rest2 =>
            simp only [bind, Except.bind, Except.mapError] at h
            cases hsub : payer.sub_prisms ws amount with
            | error e =>
                rw [hsub] at h
                exact absurd h (by simp)
            | ok ws₁ =>
                rw [hsub] at h
                dsimp only at h
                cases hadd : receiver.add_prisms ws₁ amount with
                | error e =>
                    rw [hadd] at h
                    exact absurd h (by simp)
                | ok ws₂ =>
                    rw [hadd] at h
                    dsimp only at h
                    cases h
                    have hstep1 := sub_prisms_step metas payer ws amount ws₁
                      (htas payer (by simp)) hb hsub
                    have hstep2 := add_prisms_step metas receiver ws₁ amount
                      ws' (htas receiver (by simp)) hadd
                    exact ws_step_trans metas ws ws₁ ws' hstep1 hstep2
      · rw [if_pos (by simp [hs])] at h
        exact absurd h (by simp)

theorem dispatch_step (metas : List AccountMeta) (program : Pubkey)
    (tas : List TransactionAccount) (data : List Nat) (ws ws' : List Nat)
    (htas : tas_from_metas metas tas) (hb : ∀ x ∈ ws, x < U64_MOD)
    (h : dispatch program tas data ws = .ok ws') :
    ws_step_ok metas ws ws' := by
  unfold dispatch system_execute_instruction at h
  by_cases hp : program = SYSTEM_PROGRAM
  · rw [if_pos hp] at h
    cases hparse : parse_system_instruction data with
    | none => rw [hparse] at h; exact absurd h (by simp)
    | some amount =>
        rw [hparse] at h
        exact system_transfer_step metas tas amount ws ws' htas hb h
  · rw [if_neg hp] at h
    exact absurd h (by simp)

theorem execute_instruction_step (metas : List AccountMeta)
    (instr : CompiledInstruction) (ws ws' : List Nat)
    (hb : ∀ x ∈ ws, x < U64_MOD)
    (h : execute_instruction metas instr ws = .ok ws') :
    ws_step_ok metas ws ws' := by
  unfold execute_instruction at h
  cases hg : metas.get? instr.program_account_id with
  | none => rw [hg] at h; exact absurd h (by simp)
  | some pmeta =>
      rw [hg] at h
      cases hres : resolve_instruction_accounts metas instr.accounts with
      | none => rw [hres] at h; exact absurd h (by simp)
      | some tas =>
          rw [hres] at h
          exact dispatch_step metas pmeta.key tas instr.data ws ws'
            (resolve_instruction_accounts_spec metas instr.accounts tas hres)
            hb h

theorem run_instructions_step (metas : List AccountMeta)
    (instrs : List CompiledInstruction) :
    ∀ ws ws', (∀ x ∈ ws, x < U64_MOD) →
      run_instructions metas instrs ws = .ok ws' →
      ws_step_ok metas ws ws' := by
  induction instrs with
  | nil =>
      intro ws ws' hb h
      unfold run_instructions at h
      cases h
      exact ws_step_refl metas ws
  | cons i rest ih =>
      intro ws ws' hb h
      unfold run_instructions at h
      simp only [bind, Except.bind] at h
      cases hei : execute_instruction metas i ws with
      | error e => rw [hei] at h; exact absurd h (by simp)
      | ok ws₁ =>
          rw [hei] at h
          have hstep := execute_instruction_step metas i ws ws₁ hb hei
          exact ws_step_trans metas ws ws₁ ws' hstep
            (ih ws₁ ws' (hstep.2.1 hb) h)

/-! Sum and save lemmas for C1. -/

theorem vault_get_lt (v : Vault) (key : Pubkey) (w : Wallet)
    (h : v.get key = .ok w) : w.prisms < U64_MOD := by
  have h256 : (256 : Nat) ^ 8 = U64_MOD := by norm_num [U64_MOD]
  unfold Vault.get at h
  cases hfind : v.index.find key with
  | none =>
      rw [hfind] at h
      cases h
      simp [U64_MOD]
  | some loc =>
      rw [hfind] at h
      dsimp only at h
      unfold read_from_file_map at h
      cases hd : alistFind? v.disk (AccountFile.from_loc loc) with
      | none => rw [hd] at h; exact absurd h (by simp)
      | some seg =>
          rw [hd] at h
          dsimp only at h
          by_cases hbd : loc.offset + loc.size ≤ seg.length
          · rw [if_pos hbd] at h
            cases hdes : deserialize_wallet
                ((seg.drop loc.offset).take loc.size) with
            | none => rw [hdes] at h; exact absurd h (by simp)
            | some w₂ =>
                rw [hdes] at h
                cases h
                unfold deserialize_wallet at hdes
                by_cases hlen : ((seg.drop loc.offset).take loc.size).length = 8
                · rw [if_pos hlen] at hdes
                  cases hdes
                  have := fromLEBytes_lt ((seg.drop loc.offset).take loc.size)
                  rw [hlen, h256] at this
                  exact this
                · rw [if_neg hlen] at hdes
                  exact Option.noConfusion hdes
          · rw [if_neg hbd] at h
            exact absurd h (by simp)

theorem gta_spec (metas : List AccountMeta) (v : Vault) :
    ∀ ws, get_transaction_accounts v metas = .ok ws →
      ws.length = metas.length ∧
      ∀ j, j < metas.length →
        v.get ((metas.getD j dummy_meta).key) = .ok (ws.getD j ⟨0⟩) := by
  induction metas with
  | nil =>
      intro ws h
      unfold get_transaction_accounts at h
      cases h
      exact ⟨rfl, fun j hj => absurd hj (by simp)⟩
  | cons m rest ih =>
      intro ws h
      unfold get_transaction_accounts at h
      simp only [bind, Except.bind] at h
      cases hg : v.get m.key with
      | error e => rw [hg] at h; exact absurd h (by simp)
      | ok w =>
          rw [hg] at h
          dsimp only at h
          cases hr : get_transaction_accounts v rest with
          | error e => rw [hr] at h; exact absurd h (by simp)
          | ok ws₁ =>
              rw [hr] at h
              dsimp only at h
              cases h
              obtain ⟨hlen, hpt⟩ := ih ws₁ hr
              refine ⟨by simp [hlen], ?_⟩
              intro j hj
              match j with
              | 0 =>
                  simpa [List.getD] using hg
              | j + 1 =>
                  simpa [List.getD] using hpt j (by simpa using hj)

theorem sum_set_add (l : List Nat) :
    ∀ i x, i < l.length → (l.set i x).sum + l.getD i 0 = l.sum + x := by
  induction l with
  | nil =>
      intro i x hi
      simp at hi
  | cons a rest ih =>
      intro i x hi
      match i with
      | 0 => simp [List.getD]; omega
      | i + 1 =>
          simp only [List.set_cons_succ, List.sum_cons, List.getD_cons_succ]
          have := ih i x (by simpa using hi)
          omega

theorem save_accounts_preserves_get (pairs : List (AccountMeta × Nat)) :
    ∀ v v' slot, save_accounts v pairs slot = (v', none) →
      ∀ k w, (∀ pr ∈ pairs, pr.1.is_writable = true → pr.1.key ≠ k) →
        v.get k = .ok w → v'.get k = .ok w := by
  induction pairs with
  | nil =>
      intro v v' slot h k w _ hget
      unfold save_accounts at h
      cases h
      exact hget
  | cons hd rest ih =>
      intro v v' slot h k w hk hget
      obtain ⟨m, p⟩ := hd
      unfold save_accounts at h
      by_cases hw2 : m.is_writable
      · rw [if_pos hw2] at h
        cases hs : v.save_account m.key ⟨p⟩ slot with
        | error e => rw [hs] at h; exact absurd h (by simp)
        | ok v₁ =>
            rw [hs] at h
            have hne : k ≠ m.key :=
              fun hh => hk (m, p) (by simp) hw2 (by rw [hh])
            have hget1 : v₁.get k = .ok w :=
              save_account_get_other v m.key k ⟨p⟩ w slot v₁ hne hs hget
            exact ih v₁ v' slot h k w
              (fun pr2 hpr2 hw3 => hk pr2 (List.mem_cons_of_mem _ hpr2) hw3)
              hget1
      · rw [if_neg hw2] at h
        exact ih v v' slot h k w
          (fun pr2 hpr2 hw3 => hk pr2 (List.mem_cons_of_mem _ hpr2) hw3)
          hget


theorem save_accounts_get_written (pairs : List (AccountMeta × Nat)) :
    ∀ v v' slot, save_accounts v pairs slot = (v', none) →
      (pairs.map (·.1.key)).Nodup →
      (∀ pr ∈ pairs, pr.2 < U64_MOD) →
      ∀ pr ∈ pairs, pr.1.is_writable = true → v'.get pr.1.key = .ok ⟨pr.2⟩ := by
  induction pairs with
  | nil =>
      intro v v' slot h hnd hb pr hpr
      simp at hpr
  | cons hd rest ih =>
      intro v v' slot h hnd hb pr hpr hw
      obtain ⟨m, p⟩ := hd
      unfold save_accounts at h
      simp only [List.map_cons, List.nodup_cons] at hnd
      rcases List.mem_cons.mp hpr with hpr1 | hpr1
      · subst hpr1
        rw [if_pos hw] at h
        cases hs : v.save_account m.key ⟨p⟩ slot with
        | error e => rw [hs] at h; exact absurd h (by simp)
        | ok v₁ =>
            rw [hs] at h
            have hget1 : v₁.get m.key = .ok ⟨p⟩ :=
              save_account_get_same v m.key ⟨p⟩ slot v₁
                (hb (m, p) (by simp)) hs
            exact save_accounts_preserves_get rest v₁ v' slot h m.key ⟨p⟩
              (fun pr2 hpr2 _ hkey =>
                hnd.1 (by
                  rw [← hkey]
                  exact List.mem_map.mpr ⟨pr2, hpr2, rfl⟩)) hget1
      · by_cases hw2 : m.is_writable
        · rw [if_pos hw2] at h
          cases hs : v.save_account m.key ⟨p⟩ slot with
          | error e => rw [hs] at h; exact absurd h (by simp)
          | ok v₁ =>
              rw [hs] at h
              exact ih v₁ v' slot h hnd.2
                (fun pr2 hpr2 => hb pr2 (List.mem_cons_of_mem _ hpr2))
                pr hpr1 hw
        · rw [if_neg hw2] at h
          exact ih v v' slot h hnd.2
            (fun pr2 hpr2 => hb pr2 (List.mem_cons_of_mem _ hpr2))
            pr hpr1 hw

/-- The total number of prisms the vault holds for a list of metas (reads
that fail count as zero; in every context below all reads succeed). -/
def vault_prism_sum (v : Vault) (metas : List AccountMeta) : Nat :=
  (metas.map (fun m => ((v.get m.key).toOption.getD ⟨0⟩).prisms)).sum

theorem getD_map_prisms (wallets : List Wallet) (i : Nat)
    (h : i < wallets.length) :
    (wallets.map (·.prisms)).getD i 0 = (wallets.getD i ⟨0⟩).prisms := by
  rw [List.getD_eq_getElem (wallets.map (·.prisms)) 0 (by simpa using h),
    List.getD_eq_getElem wallets ⟨0⟩ h, List.getElem_map]

theorem commit_sum_eq (v : Vault) (trx : Transaction) (v' : Vault)
    (h : execute_transaction_inner v trx = (v', none))
    (hnd : (trx.message.accounts.map (·.key)).Nodup)
    (hsw : ∀ m ∈ trx.message.accounts,
      m.is_signing = true → m.is_writable = true) :
    vault_prism_sum v' trx.message.accounts % U64_MOD =
      (vault_prism_sum v trx.message.accounts +
        (U64_MOD - TRANSACTION_FEE)) % U64_MOD := by
  unfold execute_transaction_inner at h
  cases hp : trx.message.get_payer with
  | none =>
      rw [hp] at h
      exact absurd (congrArg Prod.snd h) (by simp)
  | some payer =>
  rw [hp] at h
  dsimp only at h
  cases hga : get_transaction_accounts v trx.message.accounts with
  | error e =>
      rw [hga] at h
      exact absurd (congrArg Prod.snd h) (by simp)
  | ok wallets =>
  rw [hga] at h
  cases hfi : trx.message.accounts.findIdx? (fun m => m.key == payer) with
  | none =>
      rw [hfi] at h
      exact absurd (congrArg Prod.snd h) (by simp)
  | some payer_id =>
  rw [hfi] at h
  dsimp only at h
  cases hri : run_instructions trx.message.accounts trx.message.instructions
      ((wallets.map (·.prisms)).set payer_id
        (((wallets.map (·.prisms)).getD payer_id 0 +
          (U64_MOD - TRANSACTION_FEE)) % U64_MOD)) with
  | error e =>
      rw [hri] at h
      exact absurd (congrArg Prod.snd h) (by simp)
  | ok ws₂ =>
  rw [hri] at h
  dsimp only at h
  by_cases htot : wrap_fold_sum ((wallets.map (·.prisms)).set payer_id
      (((wallets.map (·.prisms)).getD payer_id 0 +
        (U64_MOD - TRANSACTION_FEE)) % U64_MOD)) ≠ wrap_fold_sum ws₂
  · rw [if_pos htot] at h
    exact absurd (congrArg Prod.snd h) (by simp)
  · rw [if_neg htot] at h
    push_neg at htot
    -- Abbreviations.
    set metas := trx.message.accounts with hmetas
    set ws₀ := wallets.map (·.prisms) with hws₀
    set a := ws₀.getD payer_id 0 with ha
    set r := (a + (U64_MOD - TRANSACTION_FEE)) % U64_MOD with hr
    set ws₁ := ws₀.set payer_id r with hws₁
    -- Basic facts from the pipeline.
    obtain ⟨hwlen, hpt⟩ := gta_spec metas v wallets hga
    have hws₀len : ws₀.length = metas.length := by
      rw [hws₀, List.length_map, hwlen]
    obtain ⟨hpid_lt, hpid_key, -⟩ := List.findIdx?_eq_some_iff_getElem.mp hfi
    have hb₀ : ∀ x ∈ ws₀, x < U64_MOD := by
      intro x hx
      rw [hws₀] at hx
      obtain ⟨w, hw, hwx⟩ := List.mem_map.mp hx
      obtain ⟨j, hj, hjw⟩ := List.mem_iff_getElem.mp hw
      have hget := hpt j (by omega)
      rw [List.getD_eq_getElem wallets ⟨0⟩ hj, hjw] at hget
      rw [← hwx]
      exact vault_get_lt v _ w hget
    have hrlt : r < U64_MOD := by
      rw [hr]
      exact Nat.mod_lt _ (by simp [U64_MOD])
    have hb₁ : ∀ x ∈ ws₁, x < U64_MOD := by
      intro x hx
      rw [hws₁] at hx
      rcases List.mem_or_eq_of_mem_set hx with hx | hx
      · exact hb₀ x hx
      · rw [hx]; exact hrlt
    have hstep := run_instructions_step metas trx.message.instructions
      ws₁ ws₂ hb₁ hri
    have hb₂ : ∀ x ∈ ws₂, x < U64_MOD := hstep.2.1 hb₁
    have hws₁len : ws₁.length = metas.length := by
      rw [hws₁, List.length_set, hws₀len]
    have hws₂len : ws₂.length = metas.length := by
      rw [hstep.1, hws₁len]
    -- The payer's meta is the first signing meta, hence writable.
    have hpayer_writable : (metas.getD payer_id dummy_meta).is_writable
        = true := by
      unfold Message.get_payer at hp
      cases hfs : trx.message.accounts.find? (·.is_signing) with
      | none => rw [hfs] at hp; exact absurd hp (by simp)
      | some ms =>
          rw [hfs] at hp
          simp only [Option.map_some'] at hp
          have hms_mem : ms ∈ metas := List.mem_of_find?_eq_some hfs
          have hms_sig : ms.is_signing = true := List.find?_some hfs
          have hkey_eq : (metas.getD payer_id dummy_meta).key = ms.key := by
            rw [List.getD_eq_getElem metas dummy_meta hpid_lt]
            have h4 := (beq_iff_eq).mp hpid_key
            rw [h4]
            exact (Option.some.inj hp).symm
          have hmem : metas.getD payer_id dummy_meta ∈ metas := by
            rw [List.getD_eq_getElem metas dummy_meta hpid_lt]
            exact List.getElem_mem hpid_lt
          have heq : metas.getD payer_id dummy_meta = ms :=
            List.inj_on_of_nodup_map hnd hmem hms_mem hkey_eq
          rw [heq]
          exact hsw ms hms_mem hms_sig
    -- Keys of the save pairs are the meta keys.
    have hlenle : metas.length ≤ ws₂.length := by omega
    have hpairs_fst : (metas.zip ws₂).map Prod.fst = metas :=
      List.map_fst_zip _ _ hlenle
    have hnd2 : ((metas.zip ws₂).map (fun pr => pr.1.key)).Nodup := by
      have hmm : (metas.zip ws₂).map (fun pr => pr.1.key) =
          ((metas.zip ws₂).map Prod.fst).map (·.key) :=
        (List.map_map _ _ _).symm
      rw [hmm, hpairs_fst]
      exact hnd
    have hbpairs : ∀ pr ∈ metas.zip ws₂, pr.2 < U64_MOD := by
      intro pr hpr
      exact hb₂ pr.2 (List.of_mem_zip hpr).2
    -- Pointwise value of the committed vault at each meta.
    have hpoint : ∀ i, (hi : i < metas.length) →
        ((v'.get (metas.getD i dummy_meta).key).toOption.getD ⟨0⟩).prisms
          = ws₂.getD i 0 := by
      intro i hi
      by_cases hw : (metas.getD i dummy_meta).is_writable
      · have hzlen : i < (metas.zip ws₂).length := by
          rw [List.length_zip]
          omega
        have hi₂ : i < ws₂.length := by omega
        have hzip_el : (metas.zip ws₂)[i] =
            (metas[i], ws₂[i]) := List.getElem_zip
        have hmem : (metas.getD i dummy_meta, ws₂.getD i 0) ∈
            metas.zip ws₂ := by
          rw [List.getD_eq_getElem metas dummy_meta hi,
            List.getD_eq_getElem ws₂ 0 hi₂]
          rw [← hzip_el]
          exact List.getElem_mem hzlen
        have hget := save_accounts_get_written (metas.zip ws₂) v v'
          CURRENT_SLOT h hnd2 hbpairs _ hmem hw
        rw [hget]
        rfl
      · -- Read-only: not persisted, and its working copy never changed.
        have hro : (metas.getD i dummy_meta).is_writable = false := by
          simpa using hw
        have hne_payer : i ≠ payer_id := by
          intro hh
          rw [hh] at hro
          rw [hpayer_writable] at hro
          exact Bool.noConfusion hro
        have hribefore : ws₂.getD i 0 = ws₁.getD i 0 :=
          hstep.2.2 i hi hro
        have hunset : ws₁.getD i 0 = ws₀.getD i 0 := by
          rw [hws₁]
          exact getD_set_ne ws₀ payer_id i r (Ne.symm hne_payer)
        have hgetv : v.get (metas.getD i dummy_meta).key =
            .ok (wallets.getD i ⟨0⟩) := hpt i hi
        have hkeep : ∀ pr ∈ metas.zip ws₂, pr.1.is_writable = true →
            pr.1.key ≠ (metas.getD i dummy_meta).key := by
          intro pr hpr hwpr hkeq
          have hpr1 : pr.1 ∈ metas := (List.of_mem_zip hpr).1
          have hmemi : metas.getD i dummy_meta ∈ metas := by
            rw [List.getD_eq_getElem metas dummy_meta hi]
            exact List.getElem_mem hi
          have : pr.1 = metas.getD i dummy_meta :=
            List.inj_on_of_nodup_map hnd hpr1 hmemi hkeq
          rw [this, hro] at hwpr
          exact Bool.noConfusion hwpr
        have hget' := save_accounts_preserves_get (metas.zip ws₂) v v'
          CURRENT_SLOT h _ _ hkeep hgetv
        rw [hget']
        show (wallets.getD i ⟨0⟩).prisms = ws₂.getD i 0
        rw [hribefore, hunset, hws₀]
        have hi' : i < wallets.length := by omega
        exact (getD_map_prisms wallets i hi').symm
    -- Turn the pointwise facts into list equalities, then sum.
    have hmap₂ : metas.map
        (fun m => ((v'.get m.key).toOption.getD ⟨0⟩).prisms) = ws₂ := by
      apply List.ext_getElem (by rw [List.length_map]; omega)
      intro i h1 h2
      rw [List.getElem_map]
      have := hpoint i (by
        rw [List.length_map] at h1
        omega)
      rw [List.getD_eq_getElem metas dummy_meta (by
        rw [List.length_map] at h1
        omega), List.getD_eq_getElem ws₂ 0 h2] at this
      exact this
    have hmap₀ : metas.map
        (fun m => ((v.get m.key).toOption.getD ⟨0⟩).prisms) = ws₀ := by
      apply List.ext_getElem (by rw [List.length_map]; omega)
      intro i h1 h2
      rw [List.getElem_map]
      have h1' : i < metas.length := by
        rw [List.length_map] at h1
        omega
      have := hpt i h1'
      rw [List.getD_eq_getElem metas dummy_meta h1'] at this
      rw [this]
      show (wallets.getD i ⟨0⟩).prisms = ws₀[i]
      have hi' : i < wallets.length := by omega
      have h3 : ws₀.getD i 0 = ws₀[i] := List.getD_eq_getElem ws₀ 0 h2
      rw [← h3, hws₀, getD_map_prisms wallets i hi']
    -- The modular accounting.
    have hsum₂ : vault_prism_sum v' metas = ws₂.sum := by
      unfold vault_prism_sum
      rw [hmap₂]
    have hsum₀ : vault_prism_sum v metas = ws₀.sum := by
      unfold vault_prism_sum
      rw [hmap₀]
    have hwrap : ws₁.sum % U64_MOD = ws₂.sum % U64_MOD := by
      rw [← wrap_fold_sum_eq, ← wrap_fold_sum_eq]
      exact htot
    have hset : ws₁.sum + a = ws₀.sum + r := by
      rw [hws₁, ha]
      exact sum_set_add ws₀ payer_id r (by omega)
    have hmod : ws₁.sum ≡ ws₀.sum + (U64_MOD - TRANSACTION_FEE)
        [MOD U64_MOD] := by
      have h2 : r ≡ a + (U64_MOD - TRANSACTION_FEE) [MOD U64_MOD] := by
        rw [hr]
        exact Nat.mod_modEq _ _
      have h3 : ws₁.sum + a ≡
          (ws₀.sum + (U64_MOD - TRANSACTION_FEE)) + a [MOD U64_MOD] := by
        rw [hset]
        calc ws₀.sum + r
            ≡ ws₀.sum + (a + (U64_MOD - TRANSACTION_FEE)) [MOD U64_MOD] :=
              Nat.ModEq.add_left _ h2
          _ = (ws₀.sum + (U64_MOD - TRANSACTION_FEE)) + a := by ring
      exact Nat.ModEq.add_right_cancel' a h3
    rw [hsum₂, hsum₀, ← hwrap]
    exact hmod

/-- C1 (amended): for every committed transaction whose metas carry distinct
keys and whose signing metas are writable, the vault's prism total over the
transaction's accounts after commit is congruent (mod 2^64, the unchecked
u64 arithmetic of the fee debit and the totals) to the total before minus
TRANSACTION_FEE; and the executor commits only when the wrapped working-set
total after running all instructions equals the total recorded just after
the fee debit — otherwise it fails with PrismTotalChanged. -/
theorem C1_commit_conservation :
    (∀ (v : Vault) (trx : Transaction) (v' : Vault),
      execute_transaction_inner v trx = (v', none) →
      (trx.message.accounts.map (·.key)).Nodup →
      (∀ m ∈ trx.message.accounts,
        m.is_signing = true → m.is_writable = true) →
      vault_prism_sum v' trx.message.accounts % U64_MOD =
        (vault_prism_sum v trx.message.accounts +
          (U64_MOD - TRANSACTION_FEE)) % U64_MOD) ∧
    (∀ (v : Vault) (trx : Transaction) (payer : Pubkey)
        (wallets : List Wallet) (payer_id : Nat) (ws₂ : List Nat),
      trx.message.get_payer = some payer →
      get_transaction_accounts v trx.message.accounts = .ok wallets →
      trx.message.accounts.findIdx? (fun m => m.key == payer)
        = some payer_id →
      run_instructions trx.message.accounts trx.message.instructions
        ((wallets.map (·.prisms)).set payer_id
          (((wallets.map (·.prisms)).getD payer_id 0 +
            (U64_MOD - TRANSACTION_FEE)) % U64_MOD)) = .ok ws₂ →
      wrap_fold_sum ((wallets.map (·.prisms)).set payer_id
          (((wallets.map (·.prisms)).getD payer_id 0 +
            (U64_MOD - TRANSACTION_FEE)) % U64_MOD)) ≠ wrap_fold_sum ws₂ →
      execute_transaction_inner v trx = (v, some .prismTotalChanged)) := by
  constructor
  · exact commit_sum_eq
  · intro v trx payer wallets payer_id ws₂ hp hga hfi hri htot
    unfold execute_transaction_inner
    rw [hp]
    dsimp only
    rw [hga]
    rw [hfi]
    dsimp only
    rw [hri]
    dsimp only
    rw [if_pos htot]

/-- C1 counterexample: a committed transaction whose payer held fewer prisms
than the fee. The executor commits (the unchecked debit wrapped), but the
exact equation sum_after = sum_before − TRANSACTION_FEE is false: the sum
after commit is 2^64 − 5000 while the sum before was 0. -/
theorem C1_counterexample_wrapped_commit :
    (execute_transaction_inner exVault0 exTrxFeeOnly).2 = none ∧
    vault_prism_sum (execute_transaction_inner exVault0 exTrxFeeOnly).1
        exTrxFeeOnly.message.accounts ≠
      vault_prism_sum exVault0 exTrxFeeOnly.message.accounts -
        TRANSACTION_FEE := by
  decide

/-- A vault holding 1,000,000 prisms for `exKeyA`. -/
def exVaultRich : Vault :=
  (exVault0.save_account exKeyA ⟨1000000⟩ 0).toOption.getD exVault0

/-- A signed system transfer of 500,000 prisms from `exKeyA` to `exKeyB`. -/
def exTrxTransfer : Transaction :=
  ⟨[10], ⟨0, [⟨2, 0 :: toLEBytes 8 500000, [0, 1]⟩],
    [⟨exKeyA, .signing, .yes⟩, ⟨exKeyB, .wallet, .yes⟩,
      ⟨SYSTEM_PROGRAM, .program, .no⟩]⟩⟩

/-- Witness for C1 at a concrete committed transfer. -/
theorem C1_commit_conservation_witness :
    vault_prism_sum (execute_transaction_inner exVaultRich exTrxTransfer).1
        exTrxTransfer.message.accounts % U64_MOD =
      (vault_prism_sum exVaultRich exTrxTransfer.message.accounts +
        (U64_MOD - TRANSACTION_FEE)) % U64_MOD :=
  C1_commit_conservation.1 exVaultRich exTrxTransfer
    (execute_transaction_inner exVaultRich exTrxTransfer).1
    (by decide) (by decide) (by decide)

end Bifrost
